import Mathlib

/-!
Verification development for the PoE2 stash-scanner item valuation engine.

The TypeScript sources are shallowly embedded:
* strings are `List Char` (wrapped in `String` at the interfaces), with
  JavaScript's ASCII-relevant case conversion modelled by `jsCharLower`;
* JavaScript numbers are modelled as exact rationals `ℚ`;
* JavaScript regular-expression `replace` passes are modelled by equivalent
  single-pass scanners over the character list (left-to-right, leftmost match,
  one-character advance on a failed match attempt — the semantics of a global
  `RegExp.replace`);
* fallible operations return `Option`/`Except`; network collaborators are
  oracle parameters.

The repository bundles two revisions of several modules.  Where the two
revisions differ, the embedding follows the revision containing the fuller
logic (the one the specification describes): the mod matcher of
`src/unnamed/part_004` and the currency normalizer of `src/unnamed/part_001`.
Divergences of the other revision are noted at the relevant definitions.
-/

/-- Whitespace test on code points, following JavaScript's `\s` class
(ECMAScript WhiteSpace ∪ LineTerminator). -/
def isJsWsNat (n : Nat) : Bool :=
  n == 0x9 || n == 0xA || n == 0xB || n == 0xC || n == 0xD || n == 0x20 ||
  n == 0xA0 || n == 0x1680 || (0x2000 ≤ n && n ≤ 0x200A) ||
  n == 0x2028 || n == 0x2029 || n == 0x202F || n == 0x205F || n == 0x3000 ||
  n == 0xFEFF

/-- Whitespace predicate of JavaScript's `\s` class and `String.prototype.trim`. -/
def isJsWs (c : Char) : Bool := isJsWsNat c.toNat

/-- Digit test of JavaScript's `\d` class (ASCII `0`-`9`). -/
def jsIsDigit (c : Char) : Bool := 48 ≤ c.toNat && c.toNat ≤ 57

/-- ASCII lower-casing of one character, as `String.prototype.toLowerCase`
acts on ASCII input. -/
def jsCharLower (c : Char) : Char :=
  if 65 ≤ c.toNat ∧ c.toNat ≤ 90 then Char.ofNat (c.toNat + 32) else c

/-- ASCII upper-casing of one character, as `String.prototype.toUpperCase`
acts on ASCII input. -/
def jsCharUpper (c : Char) : Char :=
  if 97 ≤ c.toNat ∧ c.toNat ≤ 122 then Char.ofNat (c.toNat - 32) else c

/-- Lower-case every character: `s.toLowerCase()` on ASCII input. -/
def lowerL (l : List Char) : List Char := l.map jsCharLower

/-- Drop leading JavaScript whitespace (the left half of `trim()`). -/
def jsTrimL (l : List Char) : List Char := l.dropWhile isJsWs

/-- Drop trailing JavaScript whitespace (the right half of `trim()`). -/
def dropTrailWs : List Char → List Char
  | [] => []
  | c :: l => if dropTrailWs l = [] ∧ isJsWs c then [] else c :: dropTrailWs l

/-- JavaScript `String.prototype.trim`. -/
def jsTrim (l : List Char) : List Char := jsTrimL (dropTrailWs l)

/-- String-level `trim`. -/
def jsTrimStr (s : String) : String := String.mk (jsTrim s.data)

/-- String-level `toLowerCase` (ASCII model). -/
def jsLowerStr (s : String) : String := String.mk (lowerL s.data)

/-- Substring test on character lists: `hay.includes(pat)`. -/
def containsSub (pat : List Char) : List Char → Bool
  | [] => pat.isEmpty
  | c :: l => pat.isPrefixOf (c :: l) || containsSub pat l

/-- JavaScript `hay.includes(pat)`. -/
def strIncludes (hay pat : String) : Bool := containsSub pat.data hay.data

/-- JavaScript `s.charAt(0).toUpperCase() + s.slice(1)` (used for the raw
currency display fallback). -/
def capitalizeFirst (s : String) : String :=
  match s.data with
  | [] => ""
  | c :: r => String.mk (jsCharUpper c :: r)

/-! ### The number-masking pass of the matcher

`part_004` line 96: `.replace(/\d+(?:\.\d+)?/g, '#')`.  The scanner below is
the standard left-to-right execution of that global replace: a maximal digit
run, optionally followed by `.` and a further maximal digit run, becomes one
`#`.  `numsGo` runs outside a number, `numsInt` just after integer-part
digits, `numsFrac` inside fraction digits. -/

mutual

/-- Scanner state: outside a number. -/
def numsGo : List Char → List Char
  | [] => []
  | c :: l => if jsIsDigit c then '#' :: numsInt l else c :: numsGo l

/-- Scanner state: just consumed integer-part digits (a `.` followed by a
digit continues the same match). -/
def numsInt : List Char → List Char
  | [] => []
  | c :: l =>
    if jsIsDigit c then numsInt l
    else if c = '.' then
      match l with
      | d :: l2 => if jsIsDigit d then numsFrac l2 else '.' :: numsGo (d :: l2)
      | [] => '.' :: numsGo []
    else c :: numsGo l

/-- Scanner state: inside fraction digits. -/
def numsFrac : List Char → List Char
  | [] => []
  | c :: l => if jsIsDigit c then numsFrac l else c :: numsGo l

end

/-! ### The bracket passes of the matcher

`part_004` lines 97-102: first `[a|b|...|z]` groups collapse to the last
`|`-alternative trimmed, then remaining `[x]` brackets are stripped.  Both
regexes read the group content as `[^\]]*`, i.e. up to the first `]`.  The
scanners carry the pending content in a reversed accumulator; an unclosed
`[` (no later `]`) can never be part of a match, so its text is emitted
verbatim. -/

/-- Content after the final `|` of a group (the "last alternative"). -/
def lastAlt (content : List Char) : List Char :=
  ((content.reverse.takeWhile (· ≠ '|')).reverse)

/-- Global replace of `/\[([^\]]*\|[^\]]*)\]/` by the trimmed last
alternative.  `acc = some buf` means a `[` is open with `buf` holding the
(reversed) content read so far. -/
def brAltGo : Option (List Char) → List Char → List Char
  | none, [] => []
  | some buf, [] => '[' :: buf.reverse
  | none, c :: l => if c = '[' then brAltGo (some []) l else c :: brAltGo none l
  | some buf, c :: l =>
    if c = ']' then
      if buf.contains '|' then jsTrim (lastAlt buf.reverse) ++ brAltGo none l
      else '[' :: buf.reverse ++ ']' :: brAltGo none l
    else brAltGo (some (c :: buf)) l

/-- Global replace of `/\[([^\]]*)\]/` by the bare content. -/
def brPlainGo : Option (List Char) → List Char → List Char
  | none, [] => []
  | some buf, [] => '[' :: buf.reverse
  | none, c :: l => if c = '[' then brPlainGo (some []) l else c :: brPlainGo none l
  | some buf, c :: l =>
    if c = ']' then buf.reverse ++ brPlainGo none l
    else brPlainGo (some (c :: buf)) l

/-- Character filter of `part_004` line 103: `.replace(/[+\-%]/g, '')`. -/
def dropSpecials (l : List Char) : List Char :=
  l.filter (fun c => ¬(c = '+' ∨ c = '-' ∨ c = '%'))

/-- Global replace of `/\([^)]*\)/` keeping a group exactly when its
lower-cased text is `(local)` (`part_004` lines 104-107); every other closed
group is deleted, and the kept group is emitted as the lower-case literal. -/
def parensGo : Option (List Char) → List Char → List Char
  | none, [] => []
  | some buf, [] => '(' :: buf.reverse
  | none, c :: l => if c = '(' then parensGo (some []) l else c :: parensGo none l
  | some buf, c :: l =>
    if c = ')' then
      (if lowerL ('(' :: buf.reverse ++ [')']) = "(local)".data
        then "(local)".data else []) ++ parensGo none l
    else parensGo (some (c :: buf)) l

/-- Whitespace-run collapse of `part_004` line 108: `.replace(/\s+/g, ' ')`.
The flag records whether the previous character belonged to a run already
replaced. -/
def collapseGo : Bool → List Char → List Char
  | _, [] => []
  | prevWs, c :: l =>
    if isJsWs c then
      if prevWs then collapseGo true l else ' ' :: collapseGo true l
    else c :: collapseGo false l

/-- Whitespace-run collapse, entry point. -/
def collapseWs (l : List Char) : List Char := collapseGo false l

/-- Full normalization pipeline on character lists, in the source's order:
numbers → `#`, `[a|b]` → last alternative, `[x]` → `x`, drop `+ - %`,
parenthesis groups (keep `(local)`), collapse whitespace, trim, lower-case. -/
def cleanL (l : List Char) : List Char :=
  lowerL (jsTrim (collapseWs (parensGo none (dropSpecials
    (brPlainGo none (brAltGo none (numsGo l)))))))

/-- ModMappingService.cleanModText (`src/unnamed/part_004` lines 94-111): the
text-normalization function of the matcher.  (The sibling revision
`src/src/utils/modMapping.ts` lines 77-90 differs: it does not join decimal
numbers into one mask, and it deletes parentheses instead of preserving a
`(local)` qualifier.) -/
def cleanModText (s : String) : String := String.mk (cleanL s.data)

/-! ### The fuzzy matcher -/

/-- Split on single spaces, as JavaScript `text.split(' ')` (adjacent spaces
produce empty fragments). -/
def splitSp (l : List Char) : List (List Char) :=
  match l with
  | [] => [[]]
  | c :: r =>
    match splitSp r with
    | [] => [[]]
    | w :: ws => if c = ' ' then [] :: w :: ws else (c :: w) :: ws

/-- ModMappingService.isModTextMatch (`src/unnamed/part_004` lines 116-141):
guard against flat-bonus (` to `) vs percentage (`increased`) cross-matches,
then accept at word-overlap ratio ≥ 0.8 over words longer than two
characters.  (The sibling revision `src/src/utils/modMapping.ts` lines 95-106
has no cross-family guard and uses threshold 0.7.) -/
def isModTextMatch (text1 text2 : String) : Bool :=
  let text1IsFlat := strIncludes text1 " to "
  let text2IsFlat := strIncludes text2 " to "
  let text1IsPct := strIncludes text1 "increased"
  let text2IsPct := strIncludes text2 "increased"
  if text1IsFlat ∧ text2IsPct then false
  else if text1IsPct ∧ text2IsFlat then false
  else
    let words1 := (splitSp text1.data).filter (fun w => 2 < w.length)
    let words2 := (splitSp text2.data).filter (fun w => 2 < w.length)
    if words1.isEmpty ∨ words2.isEmpty then false
    else
      let matching := words1.filter (fun w => words2.contains w)
      ((matching.length : ℚ) / (max words1.length words2.length) ≥ 4/5)

/-- Catalog entry of the mod matcher (`ModMapping` in the source). -/
structure ModMapping where
  id : String
  text : String
  type : String
deriving DecidableEq, Repr

/-- ModMappingService.findModId (`src/unnamed/part_004` lines 42-89).
`loaded` is the `initialized` flag: when the catalog failed to load the
matcher fails open and returns `none`.  An exact pass on normalized text
precedes the fuzzy pass.  (The debug-logging block of the source has no
effect on the result and is omitted.) -/
def findModId (mappings : List ModMapping) (loaded : Bool)
    (modText : String) (modType : String) : Option String :=
  if ¬loaded then none
  else
    let cleanInput := cleanModText modText
    match mappings.find? (fun m => m.type == modType &&
        cleanModText m.text == cleanInput) with
    | some m => some m.id
    | none =>
      (mappings.find? (fun m => m.type == modType &&
        isModTextMatch cleanInput (cleanModText m.text))).map (fun m => m.id)

/-! ### Character-level toolbox for the idempotence analysis -/

theorem charOfNat_toNat (n : Nat) (h : n < 0xd800) : (Char.ofNat n).toNat = n := by
  simp [Char.ofNat, dif_pos (show n < 55296 ∨ 57343 < n ∧ n < 1114112 from Or.inl h),
    Char.ofNatAux, Char.toNat, UInt32.toNat, UInt32.ofNatCore]

theorem char_eq_of_toNat_eq {c d : Char} (h : c.toNat = d.toNat) : c = d :=
  Char.eq_of_val_eq (UInt32.ext h)

theorem jsCharLower_toNat (c : Char) :
    (jsCharLower c).toNat =
      if 65 ≤ c.toNat ∧ c.toNat ≤ 90 then c.toNat + 32 else c.toNat := by
  unfold jsCharLower
  split
  · exact charOfNat_toNat _ (by omega)
  · rfl

theorem isJsWsNat_false {n : Nat} (h : 33 ≤ n ∧ n ≤ 159) : isJsWsNat n = false := by
  simp only [isJsWsNat, Bool.or_eq_false_iff, Bool.and_eq_false_iff, beq_eq_false_iff_ne,
    ne_eq, decide_eq_false_iff_not, not_le]
  omega

theorem jsCharLower_eq_target {c d : Char}
    (hd : ¬(97 ≤ d.toNat ∧ d.toNat ≤ 122)) (h : jsCharLower c = d) : c = d := by
  unfold jsCharLower at h
  split at h
  · next hr =>
    exfalso
    apply hd
    rw [← h, charOfNat_toNat _ (by omega)]
    omega
  · exact h

theorem jsCharLower_isDigit (c : Char) : jsIsDigit (jsCharLower c) = jsIsDigit c := by
  have ht := jsCharLower_toNat c
  unfold jsIsDigit
  rw [ht]
  split
  · next h =>
    have h1 : (decide (48 ≤ c.toNat + 32) && decide (c.toNat + 32 ≤ 57)) = false := by
      simp only [Bool.and_eq_false_iff, decide_eq_false_iff_not, not_le]
      omega
    have h2 : (decide (48 ≤ c.toNat) && decide (c.toNat ≤ 57)) = false := by
      simp only [Bool.and_eq_false_iff, decide_eq_false_iff_not, not_le]
      omega
    rw [h1, h2]
  · rfl

theorem jsCharLower_isJsWs (c : Char) : isJsWs (jsCharLower c) = isJsWs c := by
  have ht := jsCharLower_toNat c
  unfold isJsWs
  rw [ht]
  split
  · next h =>
    rw [isJsWsNat_false (by omega), isJsWsNat_false (by omega)]
  · rfl

theorem jsCharLower_idem (c : Char) : jsCharLower (jsCharLower c) = jsCharLower c := by
  have ht := jsCharLower_toNat c
  apply char_eq_of_toNat_eq
  rw [jsCharLower_toNat (jsCharLower c)]
  split at ht <;> rw [ht] <;> rw [if_neg (by omega)]

/-! ### Membership bounds for each pipeline stage -/

theorem numsGo_nil : numsGo [] = [] := rfl

theorem numsGo_cons (c : Char) (l : List Char) :
    numsGo (c :: l) = if jsIsDigit c then '#' :: numsInt l else c :: numsGo l := by
  rw [numsGo.eq_def]

theorem numsFrac_cons (c : Char) (l : List Char) :
    numsFrac (c :: l) = if jsIsDigit c then numsFrac l else c :: numsGo l := by
  rw [numsFrac.eq_def]

theorem numsInt_cons_digit (c : Char) (l : List Char) (h : jsIsDigit c = true) :
    numsInt (c :: l) = numsInt l := by
  rw [numsInt.eq_def]
  dsimp only
  rw [if_pos h]

theorem numsInt_cons_dot2 (d : Char) (l2 : List Char) :
    numsInt ('.' :: d :: l2) =
      if jsIsDigit d then numsFrac l2 else '.' :: numsGo (d :: l2) := by
  rw [numsInt.eq_def]
  dsimp only
  rw [if_neg (by decide), if_pos rfl]

theorem numsInt_dot_nil : numsInt ['.'] = '.' :: numsGo [] := by
  rw [numsInt.eq_def]
  dsimp only
  rw [if_neg (by decide), if_pos rfl]

theorem numsInt_cons_other (c : Char) (l : List Char)
    (h1 : jsIsDigit c = false) (h2 : c ≠ '.') : numsInt (c :: l) = c :: numsGo l := by
  rw [numsInt.eq_def]
  dsimp only
  rw [if_neg (by simp [h1]), if_neg h2]

theorem mem_nums_bound (n : Nat) : ∀ l : List Char, l.length ≤ n →
    (∀ c ∈ numsGo l, (c ∈ l ∨ c = '#') ∧ jsIsDigit c = false) ∧
    (∀ c ∈ numsInt l, (c ∈ l ∨ c = '#') ∧ jsIsDigit c = false) ∧
    (∀ c ∈ numsFrac l, (c ∈ l ∨ c = '#') ∧ jsIsDigit c = false) := by
  induction n with
  | zero =>
    intro l hl
    have : l = [] := List.length_eq_zero.mp (Nat.le_zero.mp hl)
    subst this
    exact ⟨by simp [numsGo_nil], by simp [numsInt], by simp [numsFrac]⟩
  | succ n ih =>
    intro l hl
    refine ⟨?_, ?_, ?_⟩
    · intro c hc
      cases l with
      | nil => simp [numsGo_nil] at hc
      | cons a l =>
        have hlen : l.length ≤ n := by simp at hl; omega
        rw [numsGo_cons] at hc
        split at hc
        · rcases List.mem_cons.mp hc with h | h
          · subst h
            exact ⟨Or.inr rfl, by decide⟩
          · have := (ih l hlen).2.1 c h
            exact ⟨this.1.imp_left (List.mem_cons_of_mem a), this.2⟩
        · next hd =>
          rcases List.mem_cons.mp hc with h | h
          · subst h
            exact ⟨Or.inl (List.mem_cons_self _ _), by simpa using hd⟩
          · have := (ih l hlen).1 c h
            exact ⟨this.1.imp_left (List.mem_cons_of_mem a), this.2⟩
    · intro c hc
      cases l with
      | nil => simp [numsInt] at hc
      | cons a l =>
        have hlen : l.length ≤ n := by simp at hl; omega
        by_cases hdig : jsIsDigit a = true
        · rw [numsInt_cons_digit a l hdig] at hc
          have := (ih l hlen).2.1 c hc
          exact ⟨this.1.imp_left (List.mem_cons_of_mem a), this.2⟩
        · by_cases hdot : a = '.'
          · subst hdot
            cases l with
            | nil =>
              rw [numsInt_dot_nil] at hc
              rcases List.mem_cons.mp hc with h | h
              · subst h
                exact ⟨Or.inl (List.mem_cons_self _ _), by decide⟩
              · simp [numsGo_nil] at h
            | cons d l2 =>
              have hlen2 : l2.length ≤ n := by simp at hlen; omega
              rw [numsInt_cons_dot2] at hc
              split at hc
              · have := (ih l2 hlen2).2.2 c hc
                refine ⟨?_, this.2⟩
                rcases this.1 with hm | hm
                · exact Or.inl (List.mem_cons_of_mem _ (List.mem_cons_of_mem _ hm))
                · exact Or.inr hm
              · rcases List.mem_cons.mp hc with h | h
                · subst h
                  exact ⟨Or.inl (List.mem_cons_self _ _), by decide⟩
                · have := (ih (d :: l2) hlen).1 c h
                  exact ⟨this.1.imp_left (List.mem_cons_of_mem _), this.2⟩
          · rw [numsInt_cons_other a l (by simpa using hdig) hdot] at hc
            rcases List.mem_cons.mp hc with h | h
            · subst h
              exact ⟨Or.inl (List.mem_cons_self _ _), by simpa using hdig⟩
            · have := (ih l hlen).1 c h
              exact ⟨this.1.imp_left (List.mem_cons_of_mem a), this.2⟩
    · intro c hc
      cases l with
      | nil => simp [numsFrac] at hc
      | cons a l =>
        have hlen : l.length ≤ n := by simp at hl; omega
        rw [numsFrac_cons] at hc
        split at hc
        · have := (ih l hlen).2.2 c hc
          exact ⟨this.1.imp_left (List.mem_cons_of_mem a), this.2⟩
        · next hd =>
          rcases List.mem_cons.mp hc with h | h
          · subst h
            exact ⟨Or.inl (List.mem_cons_self _ _), by simpa using hd⟩
          · have := (ih l hlen).1 c h
            exact ⟨this.1.imp_left (List.mem_cons_of_mem a), this.2⟩

theorem mem_numsGo {c : Char} {l : List Char} (h : c ∈ numsGo l) : c ∈ l ∨ c = '#' :=
  ((mem_nums_bound l.length l le_rfl).1 c h).1

theorem noDigit_numsGo {c : Char} {l : List Char} (h : c ∈ numsGo l) : jsIsDigit c = false :=
  ((mem_nums_bound l.length l le_rfl).1 c h).2

theorem numsGo_id {l : List Char} (h : ∀ c ∈ l, jsIsDigit c = false) : numsGo l = l := by
  induction l with
  | nil => rw [numsGo]
  | cons a l ih =>
    rw [numsGo, if_neg (by simp [h a (List.mem_cons_self a l)]),
      ih (fun c hc => h c (List.mem_cons_of_mem a hc))]

theorem brAltGo_id {l : List Char} (h : '[' ∉ l) : brAltGo none l = l := by
  induction l with
  | nil => rfl
  | cons a l ih =>
    rw [brAltGo, if_neg (by intro he; exact h (he ▸ List.mem_cons_self a l)),
      ih (fun hm => h (List.mem_cons_of_mem a hm))]

theorem brPlainGo_id {l : List Char} (h : '[' ∉ l) : brPlainGo none l = l := by
  induction l with
  | nil => rfl
  | cons a l ih =>
    rw [brPlainGo, if_neg (by intro he; exact h (he ▸ List.mem_cons_self a l)),
      ih (fun hm => h (List.mem_cons_of_mem a hm))]

theorem mem_dropSpecials {c : Char} {l : List Char} (h : c ∈ dropSpecials l) : c ∈ l :=
  List.mem_of_mem_filter h

theorem noSpecial_dropSpecials {c : Char} {l : List Char} (h : c ∈ dropSpecials l) :
    ¬(c = '+' ∨ c = '-' ∨ c = '%') := by
  have := List.of_mem_filter h
  simpa using this

theorem dropSpecials_id {l : List Char} (h : ∀ c ∈ l, ¬(c = '+' ∨ c = '-' ∨ c = '%')) :
    dropSpecials l = l := by
  apply List.filter_eq_self.mpr
  intro a ha
  simpa using h a ha

theorem mem_parensGo {c : Char} : ∀ (mode : Option (List Char)) (l : List Char),
    c ∈ parensGo mode l →
    c ∈ l ∨ (∃ buf, mode = some buf ∧ c ∈ buf) ∨ c ∈ "(local)".data ∨ c = '(' := by
  intro mode l
  induction l generalizing mode with
  | nil =>
    intro hc
    match mode with
    | none => simp [parensGo] at hc
    | some buf =>
      rw [parensGo] at hc
      rcases List.mem_cons.mp hc with h | h
      · subst h
        exact Or.inr (Or.inr (Or.inr rfl))
      · exact Or.inr (Or.inl ⟨buf, rfl, List.mem_reverse.mp h⟩)
  | cons a l ih =>
    intro hc
    match mode with
    | none =>
      rw [parensGo] at hc
      split at hc
      · next ha =>
        subst ha
        rcases ih (some []) hc with h | ⟨buf, hb, hm⟩ | h | h
        · exact Or.inl (List.mem_cons_of_mem _ h)
        · simp at hb
          subst hb
          simp at hm
        · exact Or.inr (Or.inr (Or.inl h))
        · exact Or.inr (Or.inr (Or.inr h))
      · rcases List.mem_cons.mp hc with h | h
        · subst h
          exact Or.inl (List.mem_cons_self _ _)
        · rcases ih none h with h2 | ⟨buf, hb, _⟩ | h2 | h2
          · exact Or.inl (List.mem_cons_of_mem _ h2)
          · exact absurd hb (by simp)
          · exact Or.inr (Or.inr (Or.inl h2))
          · exact Or.inr (Or.inr (Or.inr h2))
    | some buf =>
      rw [parensGo] at hc
      split at hc
      · rcases List.mem_append.mp hc with h | h
        · split at h
          · exact Or.inr (Or.inr (Or.inl h))
          · simp at h
        · rcases ih none h with h2 | ⟨buf2, hb, _⟩ | h2 | h2
          · exact Or.inl (List.mem_cons_of_mem _ h2)
          · exact absurd hb (by simp)
          · exact Or.inr (Or.inr (Or.inl h2))
          · exact Or.inr (Or.inr (Or.inr h2))
      · rcases ih (some (a :: buf)) hc with h | ⟨buf2, hb, hm⟩ | h | h
        · exact Or.inl (List.mem_cons_of_mem _ h)
        · have haux : buf2 = a :: buf := by simpa using hb.symm
          subst haux
          rcases List.mem_cons.mp hm with h2 | h2
          · subst h2
            exact Or.inl (List.mem_cons_self _ _)
          · exact Or.inr (Or.inl ⟨buf, rfl, h2⟩)
        · exact Or.inr (Or.inr (Or.inl h))
        · exact Or.inr (Or.inr (Or.inr h))

theorem mem_collapseGo {c : Char} : ∀ (b : Bool) (l : List Char),
    c ∈ collapseGo b l → c ∈ l ∨ c = ' ' := by
  intro b l
  induction l generalizing b with
  | nil => intro hc; simp [collapseGo] at hc
  | cons a l ih =>
    intro hc
    rw [collapseGo] at hc
    split at hc
    · split at hc
      · exact (ih true hc).imp_left (List.mem_cons_of_mem a)
      · rcases List.mem_cons.mp hc with h | h
        · exact Or.inr h
        · exact (ih true h).imp_left (List.mem_cons_of_mem a)
    · rcases List.mem_cons.mp hc with h | h
      · subst h
        exact Or.inl (List.mem_cons_self _ _)
      · exact (ih false h).imp_left (List.mem_cons_of_mem a)

theorem mem_dropTrailWs {c : Char} {l : List Char} (h : c ∈ dropTrailWs l) : c ∈ l := by
  induction l with
  | nil => simp [dropTrailWs] at h
  | cons a l ih =>
    rw [dropTrailWs] at h
    split at h
    · simp at h
    · rcases List.mem_cons.mp h with h2 | h2
      · subst h2
        exact List.mem_cons_self _ _
      · exact List.mem_cons_of_mem a (ih h2)

theorem mem_jsTrimL {c : Char} {l : List Char} (h : c ∈ jsTrimL l) : c ∈ l :=
  (List.dropWhile_sublist isJsWs).mem h

theorem mem_jsTrim {c : Char} {l : List Char} (h : c ∈ jsTrim l) : c ∈ l :=
  mem_dropTrailWs (mem_jsTrimL h)

theorem mem_lowerL {c : Char} {l : List Char} (h : c ∈ lowerL l) :
    ∃ d ∈ l, c = jsCharLower d := by
  rcases List.mem_map.mp h with ⟨d, hd, he⟩
  exact ⟨d, hd, he.symm⟩

/-! ### Shape invariant of the parenthesis pass

A list satisfies `POk` when every `(` in it either begins the literal
lower-case group `(local)` or is never followed by a `)`.  The parenthesis
pass always produces such a list and leaves such a list unchanged. -/

/-- Strings untouched by the parenthesis pass. -/
inductive POk : List Char → Prop
  | nil : POk []
  | cons {c : Char} {l : List Char} : c ≠ '(' → POk l → POk (c :: l)
  | loc {l : List Char} : POk l → POk ('(' :: ("local)".data ++ l))
  | dangling {l : List Char} : ')' ∉ l → POk ('(' :: l)

theorem pok_of_noRparen : ∀ {l : List Char}, ')' ∉ l → POk l := by
  intro l
  induction l with
  | nil => intro _; exact POk.nil
  | cons c l ih =>
    intro h
    by_cases hc : c = '('
    · subst hc
      exact POk.dangling (fun hm => h (List.mem_cons_of_mem _ hm))
    · exact POk.cons hc (ih (fun hm => h (List.mem_cons_of_mem _ hm)))

theorem pok_append_front {xs m : List Char} (hx : ∀ c ∈ xs, c ≠ '(')
    (hm : POk m) : POk (xs ++ m) := by
  induction xs with
  | nil => exact hm
  | cons c xs ih =>
    exact POk.cons (hx c (List.mem_cons_self _ _))
      (ih (fun d hd => hx d (List.mem_cons_of_mem c hd)))

theorem pok_tail {c : Char} {l : List Char} (h : POk (c :: l)) : POk l := by
  cases h with
  | cons _ hp => exact hp
  | loc hp => exact pok_append_front (by decide) hp
  | dangling hp => exact pok_of_noRparen hp

theorem pok_jsTrimL {l : List Char} (h : POk l) : POk (jsTrimL l) := by
  unfold jsTrimL
  induction l with
  | nil => exact h
  | cons c l ih =>
    rw [List.dropWhile_cons]
    split
    · exact ih (pok_tail h)
    · exact h

theorem parensGo_some_noRparen : ∀ {l : List Char}, ')' ∉ l →
    ∀ buf, parensGo (some buf) l = '(' :: buf.reverse ++ l := by
  intro l
  induction l with
  | nil =>
    intro _ buf
    rw [parensGo]
    simp
  | cons c l ih =>
    intro h buf
    have hcne : ¬(c = ')') := fun he => h (by rw [he]; exact List.mem_cons_self _ _)
    rw [parensGo, if_neg hcne, ih (fun hm => h (List.mem_cons_of_mem c hm)) (c :: buf)]
    simp

theorem pok_parensGo_bound (n : Nat) : ∀ l : List Char, l.length ≤ n →
    POk (parensGo none l) ∧
    ∀ buf, ')' ∉ buf → POk (parensGo (some buf) l) := by
  induction n with
  | zero =>
    intro l hl
    have : l = [] := List.length_eq_zero.mp (Nat.le_zero.mp hl)
    subst this
    constructor
    · rw [parensGo]
      exact POk.nil
    · intro buf hb
      rw [parensGo]
      exact POk.dangling (fun hm => hb (List.mem_reverse.mp hm))
  | succ n ih =>
    intro l hl
    constructor
    · cases l with
      | nil =>
        rw [parensGo]
        exact POk.nil
      | cons c l =>
        have hlen : l.length ≤ n := by simp at hl; omega
        rw [parensGo]
        split
        · exact (ih l hlen).2 [] (by simp)
        · next hc => exact POk.cons hc (ih l hlen).1
    · intro buf hb
      cases l with
      | nil =>
        rw [parensGo]
        exact POk.dangling (fun hm => hb (List.mem_reverse.mp hm))
      | cons c l =>
        have hlen : l.length ≤ n := by simp at hl; omega
        rw [parensGo]
        split
        · split
          · exact POk.loc (ih l hlen).1
          · exact (ih l hlen).1
        · next hc =>
          exact (ih l hlen).2 (c :: buf)
            (fun hm => by
              rcases List.mem_cons.mp hm with h2 | h2
              · exact hc h2.symm
              · exact hb h2)

theorem pok_parensGo (l : List Char) : POk (parensGo none l) :=
  (pok_parensGo_bound l.length l le_rfl).1

theorem parensGo_id_of_pok : ∀ {l : List Char}, POk l → parensGo none l = l := by
  intro l h
  induction h with
  | nil => rw [parensGo]
  | @cons c m hne _ ih =>
    rw [parensGo, if_neg hne, ih]
  | @loc m _ ih =>
    show parensGo none ('(' :: ('l' :: 'o' :: 'c' :: 'a' :: 'l' :: ')' :: m)) = _
    rw [parensGo, if_pos rfl]
    rw [parensGo, if_neg (by decide)]
    rw [parensGo, if_neg (by decide)]
    rw [parensGo, if_neg (by decide)]
    rw [parensGo, if_neg (by decide)]
    rw [parensGo, if_neg (by decide)]
    rw [parensGo, if_pos rfl, if_pos (by decide), ih]
    rfl
  | @dangling m hp =>
    rw [parensGo, if_pos rfl, parensGo_some_noRparen hp []]
    rfl

theorem collapseGo_cons_nonws {c : Char} (h : isJsWs c = false) (b : Bool) (l : List Char) :
    collapseGo b (c :: l) = c :: collapseGo false l := by
  rw [collapseGo, if_neg (by simp [h])]

theorem dropTrailWs_cons_nonws {c : Char} (h : isJsWs c = false) (l : List Char) :
    dropTrailWs (c :: l) = c :: dropTrailWs l := by
  rw [dropTrailWs, if_neg (by simp [h])]

theorem pok_collapseGo {l : List Char} (h : POk l) : ∀ b, POk (collapseGo b l) := by
  induction h with
  | nil =>
    intro b
    rw [collapseGo]
    exact POk.nil
  | @cons c m hne _ ih =>
    intro b
    by_cases hw : isJsWs c
    · rw [collapseGo, if_pos hw]
      cases b
      · exact POk.cons (by decide) (ih true)
      · exact ih true
    · rw [collapseGo_cons_nonws (by simpa using hw)]
      exact POk.cons hne (ih false)
  | @loc m _ ih =>
    intro b
    show POk (collapseGo b ('(' :: 'l' :: 'o' :: 'c' :: 'a' :: 'l' :: ')' :: m))
    rw [collapseGo_cons_nonws (by decide), collapseGo_cons_nonws (by decide),
      collapseGo_cons_nonws (by decide), collapseGo_cons_nonws (by decide),
      collapseGo_cons_nonws (by decide), collapseGo_cons_nonws (by decide),
      collapseGo_cons_nonws (by decide)]
    exact POk.loc (ih false)
  | @dangling m hp =>
    intro b
    rw [collapseGo_cons_nonws (by decide)]
    refine POk.dangling (fun hm => ?_)
    rcases mem_collapseGo false m hm with h2 | h2
    · exact hp h2
    · exact absurd h2 (by decide)

theorem pok_dropTrailWs {l : List Char} (h : POk l) : POk (dropTrailWs l) := by
  induction h with
  | nil =>
    rw [dropTrailWs]
    exact POk.nil
  | @cons c m hne _ ih =>
    rw [dropTrailWs]
    split
    · exact POk.nil
    · exact POk.cons hne ih
  | @loc m _ ih =>
    show POk (dropTrailWs ('(' :: 'l' :: 'o' :: 'c' :: 'a' :: 'l' :: ')' :: m))
    rw [dropTrailWs_cons_nonws (by decide), dropTrailWs_cons_nonws (by decide),
      dropTrailWs_cons_nonws (by decide), dropTrailWs_cons_nonws (by decide),
      dropTrailWs_cons_nonws (by decide), dropTrailWs_cons_nonws (by decide),
      dropTrailWs_cons_nonws (by decide)]
    exact POk.loc ih
  | @dangling m hp =>
    rw [dropTrailWs_cons_nonws (by decide)]
    exact POk.dangling (fun hm => hp (mem_dropTrailWs hm))

theorem pok_lowerL {l : List Char} (h : POk l) : POk (lowerL l) := by
  induction h with
  | nil => exact POk.nil
  | @cons c m hne _ ih =>
    show POk (jsCharLower c :: lowerL m)
    exact POk.cons (fun he => hne (jsCharLower_eq_target (by decide) he)) ih
  | @loc m _ ih =>
    show POk (jsCharLower '(' :: (lowerL "local)".data ++ lowerL m))
    rw [show jsCharLower '(' = '(' from by decide,
      show lowerL "local)".data = "local)".data from by decide]
    exact POk.loc ih
  | @dangling m hp =>
    show POk (jsCharLower '(' :: lowerL m)
    rw [show jsCharLower '(' = '(' from by decide]
    refine POk.dangling (fun hm => ?_)
    rcases mem_lowerL hm with ⟨d, hd, he⟩
    have : d = ')' := jsCharLower_eq_target (by decide) he.symm
    exact hp (this ▸ hd)

/-! ### Whitespace normal form -/

/-- Head is not whitespace (or the list is empty). -/
def headNotWs : List Char → Bool
  | [] => true
  | c :: _ => !isJsWs c

/-- Last element is not whitespace (or the list is empty). -/
def lastNotWs : List Char → Bool
  | [] => true
  | c :: l => if l.isEmpty then !isJsWs c else lastNotWs l

/-- Every whitespace character is a plain space and no whitespace character is
followed by another: the strings the collapse pass leaves unchanged. -/
def wsNorm : List Char → Bool
  | [] => true
  | c :: l => (!isJsWs c || (decide (c = ' ') && headNotWs l)) && wsNorm l

theorem wsNorm_cons_iff {c : Char} {l : List Char} :
    wsNorm (c :: l) = true ↔
      (isJsWs c = true → c = ' ' ∧ headNotWs l = true) ∧ wsNorm l = true := by
  rw [wsNorm]
  cases hw : isJsWs c <;> simp [hw]

theorem wsNorm_tail {c : Char} {l : List Char} (h : wsNorm (c :: l) = true) :
    wsNorm l = true := (wsNorm_cons_iff.mp h).2

theorem lastNotWs_cons₂ {c b : Char} {m : List Char} :
    lastNotWs (c :: b :: m) = lastNotWs (b :: m) := by
  rw [lastNotWs]
  rfl

theorem lastNotWs_tail {c : Char} {l : List Char} (h : lastNotWs (c :: l) = true) :
    lastNotWs l = true := by
  cases l with
  | nil => rfl
  | cons b m => rw [lastNotWs_cons₂] at h; exact h

theorem collapseGo_cons_ws {c : Char} (h : isJsWs c = true) (l : List Char) :
    collapseGo false (c :: l) = ' ' :: collapseGo true l ∧
    collapseGo true (c :: l) = collapseGo true l := by
  constructor <;> rw [collapseGo, if_pos h] <;> simp

theorem wsNorm_collapseGo : ∀ l : List Char,
    wsNorm (collapseGo false l) = true ∧ wsNorm (collapseGo true l) = true ∧
    headNotWs (collapseGo true l) = true := by
  intro l
  induction l with
  | nil => exact ⟨rfl, rfl, rfl⟩
  | cons c l ih =>
    cases hw : isJsWs c
    · refine ⟨?_, ?_, ?_⟩
      · rw [collapseGo_cons_nonws hw, wsNorm_cons_iff]
        exact ⟨fun hc => absurd hc (by simp [hw]), ih.1⟩
      · rw [collapseGo_cons_nonws hw, wsNorm_cons_iff]
        exact ⟨fun hc => absurd hc (by simp [hw]), ih.1⟩
      · rw [collapseGo_cons_nonws hw, headNotWs, hw]
        rfl
    · refine ⟨?_, ?_, ?_⟩
      · rw [(collapseGo_cons_ws hw l).1, wsNorm_cons_iff]
        exact ⟨fun _ => ⟨rfl, ih.2.2⟩, ih.2.1⟩
      · rw [(collapseGo_cons_ws hw l).2]
        exact ih.2.1
      · rw [(collapseGo_cons_ws hw l).2]
        exact ih.2.2

theorem collapseGo_id : ∀ {l : List Char}, wsNorm l = true → collapseGo false l = l := by
  intro l
  induction l with
  | nil => intro _; rfl
  | cons c l ih =>
    intro h
    have hl : wsNorm l = true := wsNorm_tail h
    cases hw : isJsWs c
    · rw [collapseGo_cons_nonws hw, ih hl]
    · obtain ⟨hc, hh⟩ := (wsNorm_cons_iff.mp h).1 hw
      rw [(collapseGo_cons_ws hw l).1]
      subst hc
      congr 1
      cases l with
      | nil => rfl
      | cons b m =>
        have hb : isJsWs b = false := by
          rw [headNotWs] at hh
          simpa using hh
        rw [collapseGo_cons_nonws hb]
        have hx := ih hl
        rw [collapseGo_cons_nonws hb] at hx
        exact hx

theorem headNotWs_dropTrailWs {l : List Char} (h : headNotWs l = true) :
    headNotWs (dropTrailWs l) = true := by
  cases l with
  | nil => rfl
  | cons c l =>
    rw [dropTrailWs]
    split
    · rfl
    · rw [headNotWs] at h ⊢
      exact h

theorem wsNorm_dropTrailWs : ∀ {l : List Char}, wsNorm l = true →
    wsNorm (dropTrailWs l) = true := by
  intro l
  induction l with
  | nil => intro _; rfl
  | cons c l ih =>
    intro h
    rw [dropTrailWs]
    split
    · rfl
    · rw [wsNorm_cons_iff]
      refine ⟨?_, ih (wsNorm_tail h)⟩
      intro hw
      obtain ⟨hc, hh⟩ := (wsNorm_cons_iff.mp h).1 hw
      exact ⟨hc, headNotWs_dropTrailWs hh⟩

theorem lastNotWs_dropTrailWs : ∀ l : List Char, lastNotWs (dropTrailWs l) = true := by
  intro l
  induction l with
  | nil => rfl
  | cons c l ih =>
    rw [dropTrailWs]
    split
    · rfl
    · next hcond =>
      cases hdl : dropTrailWs l with
      | nil =>
        have hcw : isJsWs c = false := by
          cases hx : isJsWs c
          · rfl
          · exact absurd ⟨hdl, hx⟩ hcond
        rw [lastNotWs]
        simp [hcw]
      | cons b m =>
        rw [hdl] at ih
        rw [lastNotWs_cons₂]
        exact ih

theorem dropTrailWs_id : ∀ {l : List Char}, lastNotWs l = true → dropTrailWs l = l := by
  intro l
  induction l with
  | nil => intro _; rfl
  | cons c l ih =>
    intro h
    cases l with
    | nil =>
      rw [lastNotWs] at h
      simp only [List.isEmpty_nil, if_pos] at h
      rw [dropTrailWs,
        if_neg (fun hco => by rw [hco.2] at h; exact absurd h (by simp))]
      rfl
    | cons b m =>
      have hl := ih (lastNotWs_tail h)
      rw [dropTrailWs, hl, if_neg (fun hco => List.cons_ne_nil b m hco.1)]

theorem headNotWs_jsTrimL : ∀ l : List Char, headNotWs (jsTrimL l) = true := by
  intro l
  induction l with
  | nil => rfl
  | cons c l ih =>
    unfold jsTrimL at *
    rw [List.dropWhile_cons]
    split
    · exact ih
    · next hw =>
      rw [headNotWs]
      simpa using hw

theorem lastNotWs_jsTrimL {l : List Char} (h : lastNotWs l = true) :
    lastNotWs (jsTrimL l) = true := by
  unfold jsTrimL
  induction l with
  | nil => exact h
  | cons c l ih =>
    rw [List.dropWhile_cons]
    split
    · exact ih (lastNotWs_tail h)
    · exact h

theorem wsNorm_jsTrimL {l : List Char} (h : wsNorm l = true) :
    wsNorm (jsTrimL l) = true := by
  unfold jsTrimL
  induction l with
  | nil => exact h
  | cons c l ih =>
    rw [List.dropWhile_cons]
    split
    · exact ih (wsNorm_tail h)
    · exact h

theorem jsTrimL_id {l : List Char} (h : headNotWs l = true) : jsTrimL l = l := by
  cases l with
  | nil => rfl
  | cons c l =>
    rw [headNotWs] at h
    unfold jsTrimL
    rw [List.dropWhile_cons, if_neg (by simpa using h)]

theorem headNotWs_lowerL {l : List Char} (h : headNotWs l = true) :
    headNotWs (lowerL l) = true := by
  cases l with
  | nil => rfl
  | cons c l =>
    show headNotWs (jsCharLower c :: lowerL l) = true
    rw [headNotWs, jsCharLower_isJsWs]
    rw [headNotWs] at h
    exact h

theorem lastNotWs_lowerL : ∀ {l : List Char}, lastNotWs l = true →
    lastNotWs (lowerL l) = true := by
  intro l
  induction l with
  | nil => intro _; rfl
  | cons c l ih =>
    intro h
    show lastNotWs (jsCharLower c :: lowerL l) = true
    cases l with
    | nil =>
      rw [lastNotWs] at h ⊢
      simp only [List.isEmpty_nil, if_pos] at h ⊢
      rw [jsCharLower_isJsWs]
      exact h
    | cons b m =>
      show lastNotWs (jsCharLower c :: jsCharLower b :: lowerL m) = true
      rw [lastNotWs_cons₂]
      have := ih (lastNotWs_tail h)
      exact this

theorem wsNorm_lowerL : ∀ {l : List Char}, wsNorm l = true →
    wsNorm (lowerL l) = true := by
  intro l
  induction l with
  | nil => intro _; rfl
  | cons c l ih =>
    intro h
    show wsNorm (jsCharLower c :: lowerL l) = true
    rw [wsNorm_cons_iff]
    refine ⟨?_, ih (wsNorm_tail h)⟩
    intro hw
    rw [jsCharLower_isJsWs] at hw
    obtain ⟨hc, hh⟩ := (wsNorm_cons_iff.mp h).1 hw
    subst hc
    refine ⟨by decide, ?_⟩
    cases l with
    | nil => rfl
    | cons b m =>
      show headNotWs (jsCharLower b :: lowerL m) = true
      rw [headNotWs, jsCharLower_isJsWs]
      rw [headNotWs] at hh
      exact hh

theorem lowerL_idem (l : List Char) : lowerL (lowerL l) = lowerL l := by
  induction l with
  | nil => rfl
  | cons c l ih =>
    show jsCharLower (jsCharLower c) :: lowerL (lowerL l) = _
    rw [jsCharLower_idem, ih]
    rfl

/-! ### The normalization pipeline fixes its own output -/

theorem cleanL_id_of_nf {x : List Char}
    (h1 : ∀ c ∈ x, jsIsDigit c = false)
    (h2 : '[' ∉ x)
    (h3 : ∀ c ∈ x, ¬(c = '+' ∨ c = '-' ∨ c = '%'))
    (h4 : POk x)
    (h5 : wsNorm x = true)
    (h6 : lastNotWs x = true)
    (h7 : headNotWs x = true)
    (h8 : lowerL x = x) : cleanL x = x := by
  unfold cleanL collapseWs jsTrim
  rw [numsGo_id h1, brAltGo_id h2, brPlainGo_id h2, dropSpecials_id h3,
    parensGo_id_of_pok h4, collapseGo_id h5, dropTrailWs_id h6, jsTrimL_id h7, h8]

theorem cleanL_fixpoint {d : List Char} (hd : '[' ∉ d) : cleanL (cleanL d) = cleanL d := by
  have hnum1 : ∀ c ∈ numsGo d, jsIsDigit c = false := fun c hc => noDigit_numsGo hc
  have hlb1 : '[' ∉ numsGo d := by
    intro hm
    rcases mem_numsGo hm with h | h
    · exact hd h
    · exact absurd h (by decide)
  have hv : cleanL d =
      lowerL (jsTrimL (dropTrailWs (collapseGo false
        (parensGo none (dropSpecials (numsGo d)))))) := by
    unfold cleanL collapseWs jsTrim
    rw [brAltGo_id hlb1, brPlainGo_id hlb1]
  have ha_dig : ∀ c ∈ dropSpecials (numsGo d), jsIsDigit c = false :=
    fun c hc => hnum1 c (mem_dropSpecials hc)
  have ha_lb : '[' ∉ dropSpecials (numsGo d) := fun hm => hlb1 (mem_dropSpecials hm)
  have ha_spec : ∀ c ∈ dropSpecials (numsGo d), ¬(c = '+' ∨ c = '-' ∨ c = '%') :=
    fun c hc => noSpecial_dropSpecials hc
  have hloc_dig : ∀ c ∈ "(local)".data, jsIsDigit c = false := by decide
  have hloc_spec : ∀ c ∈ "(local)".data, ¬(c = '+' ∨ c = '-' ∨ c = '%') := by decide
  have hp_pok : POk (parensGo none (dropSpecials (numsGo d))) := pok_parensGo _
  have hp_dig : ∀ c ∈ parensGo none (dropSpecials (numsGo d)), jsIsDigit c = false := by
    intro c hc
    rcases mem_parensGo none _ hc with h | ⟨buf, hb, _⟩ | h | h
    · exact ha_dig c h
    · exact absurd hb (by simp)
    · exact hloc_dig c h
    · subst h; decide
  have hp_lb : '[' ∉ parensGo none (dropSpecials (numsGo d)) := by
    intro hm
    rcases mem_parensGo none _ hm with h | ⟨buf, hb, _⟩ | h | h
    · exact ha_lb h
    · exact absurd hb (by simp)
    · exact absurd h (by decide)
    · exact absurd h (by decide)
  have hp_spec : ∀ c ∈ parensGo none (dropSpecials (numsGo d)),
      ¬(c = '+' ∨ c = '-' ∨ c = '%') := by
    intro c hc
    rcases mem_parensGo none _ hc with h | ⟨buf, hb, _⟩ | h | h
    · exact ha_spec c h
    · exact absurd hb (by simp)
    · exact hloc_spec c h
    · subst h; decide
  have hw_pok : POk (collapseGo false (parensGo none (dropSpecials (numsGo d)))) :=
    pok_collapseGo hp_pok false
  have hw_norm := (wsNorm_collapseGo (parensGo none (dropSpecials (numsGo d)))).1
  have hw_dig : ∀ c ∈ collapseGo false (parensGo none (dropSpecials (numsGo d))),
      jsIsDigit c = false := by
    intro c hc
    rcases mem_collapseGo false _ hc with h | h
    · exact hp_dig c h
    · subst h; decide
  have hw_lb : '[' ∉ collapseGo false (parensGo none (dropSpecials (numsGo d))) := by
    intro hm
    rcases mem_collapseGo false _ hm with h | h
    · exact hp_lb h
    · exact absurd h (by decide)
  have hw_spec : ∀ c ∈ collapseGo false (parensGo none (dropSpecials (numsGo d))),
      ¬(c = '+' ∨ c = '-' ∨ c = '%') := by
    intro c hc
    rcases mem_collapseGo false _ hc with h | h
    · exact hp_spec c h
    · subst h; decide
  have ht_pok := pok_dropTrailWs hw_pok
  have ht_norm := wsNorm_dropTrailWs hw_norm
  have ht_last := lastNotWs_dropTrailWs
    (collapseGo false (parensGo none (dropSpecials (numsGo d))))
  have hu_pok := pok_jsTrimL ht_pok
  have hu_norm := wsNorm_jsTrimL ht_norm
  have hu_last := lastNotWs_jsTrimL ht_last
  have hu_head := headNotWs_jsTrimL
    (dropTrailWs (collapseGo false (parensGo none (dropSpecials (numsGo d)))))
  have hu_dig : ∀ c ∈ jsTrimL (dropTrailWs (collapseGo false
      (parensGo none (dropSpecials (numsGo d))))), jsIsDigit c = false :=
    fun c hc => hw_dig c (mem_dropTrailWs (mem_jsTrimL hc))
  have hu_lb : '[' ∉ jsTrimL (dropTrailWs (collapseGo false
      (parensGo none (dropSpecials (numsGo d))))) :=
    fun hm => hw_lb (mem_dropTrailWs (mem_jsTrimL hm))
  have hu_spec : ∀ c ∈ jsTrimL (dropTrailWs (collapseGo false
      (parensGo none (dropSpecials (numsGo d))))), ¬(c = '+' ∨ c = '-' ∨ c = '%') :=
    fun c hc => hw_spec c (mem_dropTrailWs (mem_jsTrimL hc))
  rw [hv]
  apply cleanL_id_of_nf
  · intro c hc
    rcases mem_lowerL hc with ⟨e, he, hce⟩
    rw [hce, jsCharLower_isDigit]
    exact hu_dig e he
  · intro hm
    rcases mem_lowerL hm with ⟨e, he, hce⟩
    have : e = '[' := jsCharLower_eq_target (by decide) hce.symm
    exact hu_lb (this ▸ he)
  · intro c hc hbad
    rcases mem_lowerL hc with ⟨e, he, hce⟩
    rcases hbad with h | h | h
    · rw [h] at hce
      have : e = '+' := jsCharLower_eq_target (by decide) hce.symm
      exact hu_spec e he (Or.inl this)
    · rw [h] at hce
      have : e = '-' := jsCharLower_eq_target (by decide) hce.symm
      exact hu_spec e he (Or.inr (Or.inl this))
    · rw [h] at hce
      have : e = '%' := jsCharLower_eq_target (by decide) hce.symm
      exact hu_spec e he (Or.inr (Or.inr this))
  · exact pok_lowerL hu_pok
  · exact wsNorm_lowerL hu_norm
  · exact lastNotWs_lowerL hu_last
  · exact headNotWs_lowerL hu_head
  · exact lowerL_idem _

/-- Idempotence of the normalization function on square-bracket-free input. -/
theorem cleanModText_idem_of_noBracket {t : String} (ht : '[' ∉ t.data) :
    cleanModText (cleanModText t) = cleanModText t := by
  unfold cleanModText
  have : (String.mk (cleanL t.data)).data = cleanL t.data := rfl
  rw [this, cleanL_fixpoint ht]

/-! ### Claims about the matcher -/

/-- C3: the fuzzy matcher never resolves a flat-bonus text (containing
` to `) to a percentage text (containing `increased`) in either direction,
regardless of word overlap; in particular a catalog whose entry is
`12% increased maximum Life` never matches the input `+50 to maximum Life`,
whatever the entry's id. -/
theorem c3_no_cross_family_match (t1 t2 : String)
    (h1 : strIncludes t1 " to " = true) (h2 : strIncludes t2 "increased" = true) :
    isModTextMatch t1 t2 = false ∧ isModTextMatch t2 t1 = false ∧
    ∀ i : String,
      findModId [⟨i, "12% increased maximum Life", "explicit"⟩] true
        "+50 to maximum Life" "explicit" = none := by
  refine ⟨?_, ?_, ?_⟩
  · rw [isModTextMatch]
    simp [h1, h2]
  · rw [isModTextMatch]
    simp [h1, h2]
  · intro i
    rfl

/-- Witness for C3 at the spec's example pair (given in normalized form, as
the matcher compares normalized texts). -/
theorem c3_witness :
    strIncludes "# to maximum life" " to " = true ∧
    strIncludes "# increased maximum life" "increased" = true ∧
    isModTextMatch "# to maximum life" "# increased maximum life" = false ∧
    isModTextMatch "# increased maximum life" "# to maximum life" = false ∧
    findModId [⟨"mod1", "12% increased maximum Life", "explicit"⟩] true
      "+50 to maximum Life" "explicit" = none := by
  have h := c3_no_cross_family_match "# to maximum life" "# increased maximum life"
    (by decide) (by decide)
  exact ⟨by decide, by decide, h.1, h.2.1, h.2.2 "mod1"⟩

/-- C6 counterexample: the normalization function is not idempotent; on the
nested-bracket input `[[a]]` one pass gives `[a]` and a second pass strips
the surviving bracket pair, giving `a`. -/
theorem c6_counterexample :
    cleanModText (cleanModText "[[a]]") ≠ cleanModText "[[a]]" := by decide

/-- C6 (amended): the normalization function is idempotent on every input
that contains no `[` character (bracket groups are the one construct whose
replacement can expose a new bracket group to a second pass). -/
theorem c6_cleanModText_idempotent (t : String) (ht : '[' ∉ t.data) :
    cleanModText (cleanModText t) = cleanModText t := by
  unfold cleanModText
  have hdata : (String.mk (cleanL t.data)).data = cleanL t.data := rfl
  rw [hdata, cleanL_fixpoint ht]

/-- Witness for the amended C6 on a representative bracket-free mod text. -/
theorem c6_witness :
    '[' ∉ "+50 to Maximum   LIFE (Local) 12.5%".data ∧
    cleanModText (cleanModText "+50 to Maximum   LIFE (Local) 12.5%") =
      cleanModText "+50 to Maximum   LIFE (Local) 12.5%" :=
  ⟨by decide, c6_cleanModText_idempotent "+50 to Maximum   LIFE (Local) 12.5%" (by decide)⟩

/-- C7: two mod texts that agree after the number-masking pass (i.e. differ
only in numeric magnitudes) resolve to exactly the same result under
`findModId`, for every catalog, initialization state and mod kind. -/
theorem c7_findModId_numeral_invariant (mappings : List ModMapping) (loaded : Bool)
    (t1 t2 ty : String) (h : numsGo t1.data = numsGo t2.data) :
    findModId mappings loaded t1 ty = findModId mappings loaded t2 ty := by
  have hc : cleanModText t1 = cleanModText t2 := by
    unfold cleanModText cleanL
    rw [h]
  unfold findModId
  rw [hc]

/-- Witness for C7: `+15 to Life` and `+99 to Life` both resolve to the same
id against a catalog holding `+# to Life`. -/
theorem c7_witness :
    numsGo "+15 to Life".data = numsGo "+99 to Life".data ∧
    findModId [⟨"m1", "+# to Life", "explicit"⟩] true "+15 to Life" "explicit" =
      findModId [⟨"m1", "+# to Life", "explicit"⟩] true "+99 to Life" "explicit" ∧
    findModId [⟨"m1", "+# to Life", "explicit"⟩] true "+15 to Life" "explicit" =
      some "m1" :=
  ⟨by decide,
   c7_findModId_numeral_invariant [⟨"m1", "+# to Life", "explicit"⟩] true
     "+15 to Life" "+99 to Life" "explicit" (by decide),
   by decide⟩

/-! ### Currency normalizer (`src/unnamed/part_001`, App component lines 208-367)

JavaScript object lookups on the rate table become association-list lookups;
the truthiness test `if (rate)` is `truthyRate` (absent or zero is falsy).
Number-to-string formatting inside template literals is abstracted into the
payloads of `DisplayText` constructors, one per `return` site of the source;
which constructor is produced, and with which numeric payload and label, is
exactly what the claims observe. -/

/-- Rate table: currency key to rate, in insertion order. -/
def RateTable : Type := List (String × ℚ)

/-- Object property lookup `currencyValues[k]`. -/
def lookupRate (table : RateTable) (k : String) : Option ℚ :=
  (List.find? (fun e => e.1 == k) table).map (fun e => e.2)

/-- JavaScript truthiness of a looked-up rate: `undefined` and `0` are falsy. -/
def truthyRate : Option ℚ → Bool
  | none => false
  | some q => decide (q ≠ 0)

/-- JavaScript `a || b` on looked-up rates. -/
def jsOrOpt (a b : Option ℚ) : Option ℚ := if truthyRate a then a else b

/-- isExaltCurrency (`part_001` lines 209-215): recognizes the canonical unit
by exact lower-cased names or any text containing `exalt`. -/
def isExaltCurrency (currency : String) : Bool :=
  if currency = "" then false
  else
    let lower := jsTrimStr (jsLowerStr currency)
    lower == "exalted" || lower == "exalt" || lower == "exalted orb" ||
    lower == "exalts" || strIncludes lower "exalt"

/-- Abbreviation expansion dictionary of `findClosestCurrencyMatch`
(`part_001` lines 236-253). -/
def commonExpansions : List (String × List String) :=
  [("aug", ["orb-of-augmentation", "augmentation", "orb-augmentation"]),
   ("transmute", ["orb-of-transmutation", "transmutation", "orb-transmutation"]),
   ("chance", ["orb-of-chance", "orb-chance"]),
   ("alchemy", ["orb-of-alchemy", "orb-alchemy"]),
   ("ancient", ["ancient-orb", "orb-ancient"]),
   ("binding", ["orb-of-binding", "orb-binding"]),
   ("chaos", ["chaos-orb", "orb-chaos"]),
   ("chromatic", ["chromatic-orb", "orb-chromatic"]),
   ("divine", ["divine-orb", "orb-divine"]),
   ("fusing", ["orb-of-fusing", "fusing", "orb-fusing"]),
   ("jeweller", ["jeweller-orb", "orb-jeweller", "orb-of-jewelling"]),
   ("regret", ["orb-of-regret", "orb-regret"]),
   ("scouring", ["orb-of-scouring", "orb-scouring"]),
   ("regal", ["regal-orb", "orb-regal"]),
   ("exalt", ["exalted-orb", "orb-exalted"]),
   ("vaal", ["vaal-orb", "orb-vaal"])]

/-- Comparator of the partial-match ranking (`part_001` lines 276-286):
prefix matches first, then shorter keys first; expressed as the comparator's
sign against zero. -/
def candCmp (normalized a b : String) : Int :=
  let aStarts := a.startsWith normalized
  let bStarts := b.startsWith normalized
  if aStarts ∧ ¬bStarts then -1
  else if ¬aStarts ∧ bStarts then 1
  else (a.length : Int) - (b.length : Int)

/-- Stable insertion of one key into a comparator-sorted list (an element
already in place stays before a later-inserted equal one, as the stable
`Array.prototype.sort` of ECMAScript). -/
def candInsert (normalized : String) (a : String) : List String → List String
  | [] => [a]
  | b :: l =>
    if candCmp normalized b a < 0 then b :: candInsert normalized a l
    else a :: b :: l

/-- Stable sort by the partial-match comparator. -/
def candSort (normalized : String) : List String → List String
  | [] => []
  | a :: l => candInsert normalized a (candSort normalized l)

/-- findClosestCurrencyMatch (`part_001` lines 218-294): exact key, then the
abbreviation dictionary, then ranked substring matches. -/
def findClosestCurrencyMatch (table : RateTable) (currency : String) : Option String :=
  if currency = "" ∨ table.isEmpty then none
  else
    let normalized := jsTrimStr (jsLowerStr currency)
    if truthyRate (lookupRate table normalized) then some normalized
    else
      let fromExp : Option String :=
        match (List.find? (fun e => e.1 == normalized) commonExpansions).map
            (fun e => e.2) with
        | some exps => exps.find? (fun e => truthyRate (lookupRate table e))
        | none => none
      match fromExp with
      | some e => some e
      | none =>
        let available := table.map Prod.fst
        let cands := available.filter
          (fun k => strIncludes k normalized || strIncludes normalized k)
        match candSort normalized cands with
        | best :: _ => some best
        | [] => none

/-- Display text of a conversion result, one constructor per `return` site of
`convertToExalts`; numeric payloads stand for the interpolated numbers. -/
inductive DisplayText where
  | exalted (v : ℚ)
  | raw (v : ℚ) (label : String)
  | roundedExalts (n : ℤ)
  | decimalExalts (v : ℚ)
deriving DecidableEq, Repr

/-- Result of `convertToExalts`. -/
structure ConvResult where
  value : ℚ
  display : DisplayText
deriving DecidableEq, Repr

/-- Math.round: round half toward positive infinity. -/
def jsRound (x : ℚ) : ℤ := ⌊x + 1/2⌋

/-- Rate-resolution chain of `convertToExalts` (`part_001` lines 310-325):
direct lookup of the normalized then the verbatim key, then the closest
match. -/
def resolvedRate (table : RateTable) (currency : String) : Option ℚ :=
  let normalized := jsTrimStr (jsLowerStr currency)
  let rate1 := jsOrOpt (lookupRate table normalized) (lookupRate table currency)
  if ¬truthyRate rate1 then
    match findClosestCurrencyMatch table currency with
    | some k => lookupRate table k
    | none => rate1
  else rate1

/-- convertToExalts (`part_001` lines 297-367): the currency normalizer
`toCanonical`.  A total function: no branch raises.  (The sibling revision
`src/src/App.tsx` lines 69-108 has no fuzzy resolution and returns the raw
`value` rather than `0` when no rate is found.) -/
def convertToExalts (table : RateTable) (value : ℚ) (currency : String) : ConvResult :=
  if isExaltCurrency currency then
    { value := value, display := DisplayText.exalted value }
  else
    let rate2 := resolvedRate table currency
    if ¬truthyRate rate2 then
      { value := 0, display := DisplayText.raw value (capitalizeFirst currency) }
    else if rate2 = some 0 then
      { value := 0, display := DisplayText.raw value (capitalizeFirst currency) }
    else
      let rate := rate2.getD 0
      let exaltValue := value * rate
      if exaltValue ≥ 1 then
        { value := exaltValue, display := DisplayText.roundedExalts (jsRound exaltValue) }
      else
        { value := exaltValue, display := DisplayText.decimalExalts exaltValue }

/-! ### Claims about the currency normalizer -/

/-- C2: when the currency is not the canonical unit and the resolution chain
yields no usable rate (no table entry, or a zero rate — in particular any
lookup against an empty table), `convertToExalts` returns canonical amount
`0` with the raw-value display fallback carrying the original currency
label; being a total function, it never raises. -/
theorem c2_toCanonical_missing_rate (table : RateTable) (v : ℚ) (currency : String)
    (hx : isExaltCurrency currency = false)
    (hr : truthyRate (resolvedRate table currency) = false) :
    convertToExalts table v currency =
      { value := 0, display := DisplayText.raw v (capitalizeFirst currency) } := by
  unfold convertToExalts
  rw [if_neg (by simp [hx]), if_pos (by simp [hr])]

/-- Witness for C2: an unknown currency against the empty table, and a
currency whose only resolution (via substring match) carries rate `0`. -/
theorem c2_witness :
    (isExaltCurrency "unknown" = false ∧
      truthyRate (resolvedRate [] "unknown") = false ∧
      convertToExalts [] 5 "unknown" =
        { value := 0, display := DisplayText.raw 5 "Unknown" }) ∧
    (isExaltCurrency "chaos" = false ∧
      truthyRate (resolvedRate [("chaos-orb", 0)] "chaos") = false ∧
      convertToExalts [("chaos-orb", 0)] 50 "chaos" =
        { value := 0, display := DisplayText.raw 50 "Chaos" }) :=
  ⟨⟨by decide, by decide, c2_toCanonical_missing_rate [] 5 "unknown" (by decide) (by decide)⟩,
   ⟨by decide, by decide,
    c2_toCanonical_missing_rate [("chaos-orb", 0)] 50 "chaos" (by decide) (by decide)⟩⟩

/-- C5: for any recognized alias of the canonical unit (exact name or any
text containing `exalt`, case-insensitively), `convertToExalts` returns the
amount unchanged, and the result is independent of the rate table. -/
theorem c5_toCanonical_exalt_alias (table : RateTable) (v : ℚ) (currency : String)
    (hx : isExaltCurrency currency = true) :
    convertToExalts table v currency =
      { value := v, display := DisplayText.exalted v } ∧
    ∀ t2 : RateTable, convertToExalts t2 v currency = convertToExalts table v currency := by
  constructor
  · unfold convertToExalts
    rw [if_pos hx]
  · intro t2
    unfold convertToExalts
    rw [if_pos hx, if_pos hx]

/-- Witness for C5 with a mixed-case alias and a non-trivial table. -/
theorem c5_witness :
    isExaltCurrency "EXALTED Orb" = true ∧
    convertToExalts [("chaos-orb", 2)] 7 "EXALTED Orb" =
      { value := 7, display := DisplayText.exalted 7 } :=
  ⟨by decide,
   (c5_toCanonical_exalt_alias [("chaos-orb", 2)] 7 "EXALTED Orb" (by decide)).1⟩

/-! ### Trade API data model (`src/src/api/poe2TradeApi.ts`, types from the
`types.ts` module)

Network collaborators (`searchSimilarItems`'s HTTP call, `fetchItemDetails`)
are oracle parameters returning `Except` (a thrown error) or their parsed
payloads. -/

/-- ItemStat of `types.ts`. -/
structure ItemStat where
  name : String
  value : String
  type : String
deriving DecidableEq, Repr

/-- StashedItem of `types.ts`; optional fields are `Option`. -/
structure StashedItem where
  id : String
  name : String
  type : String
  rarity : String
  level : ℚ
  stats : List ItemStat
  estimatedValue : Option ℚ
  currency : Option String
  icon : Option String
deriving DecidableEq, Repr

/-- PricingData of `types.ts`. -/
structure PricingData where
  itemId : String
  estimatedValue : ℚ
  currency : String
  confidence : ℚ
deriving DecidableEq, Repr

/-- Listing price of a fetched trade item (`firstItem.listing.price`). -/
structure PriceTag where
  amount : ℚ
  currency : Option String
deriving DecidableEq, Repr

/-- Listing record of a fetched trade item. -/
structure TradeListing where
  price : Option PriceTag
deriving DecidableEq, Repr

/-- Payload under the `item` property of a trade fetch result. -/
structure ItemPayload where
  name : String
  typeLine : String
  rarity : Option String
  ilvl : Option ℚ
  icon : Option String
  explicitMods : Option (List String)
  implicitMods : Option (List String)
  craftedMods : Option (List String)
deriving DecidableEq, Repr

/-- TradeFetchItem of `types.ts`, with the listing data `getItemPrice`
reads. -/
structure TradeFetchItem where
  id : String
  item : ItemPayload
  listing : Option TradeListing
deriving DecidableEq, Repr

/-- JavaScript `a || b` on strings (empty string is falsy). -/
def jsStrOr (a b : String) : String := if a = "" then b else a

/-- JavaScript `a || b` where `a` is an optional number (absent and `0` are
falsy). -/
def jsNumOr (a : Option ℚ) (b : ℚ) : ℚ :=
  match a with
  | some x => if x = 0 then b else x
  | none => b

/-- convertApiItemToStashedItem (`poe2TradeApi.ts` lines 221-285): explicit,
implicit then crafted mods become stats; rarity is normalized through a
lower-cased switch; name and type fall back through `||` chains. -/
def convertApiItemToStashedItem (apiItem : TradeFetchItem) : StashedItem :=
  let item := apiItem.item
  let stats :=
    ((item.explicitMods.getD []).map (fun m => ItemStat.mk m "" "explicit")) ++
    ((item.implicitMods.getD []).map (fun m => ItemStat.mk m "" "implicit")) ++
    ((item.craftedMods.getD []).map (fun m => ItemStat.mk m "" "crafted"))
  let rl := item.rarity.map jsLowerStr
  let rarity :=
    if rl = some "magic" then "magic"
    else if rl = some "rare" then "rare"
    else if rl = some "unique" then "unique"
    else "normal"
  { id := apiItem.id,
    name := jsStrOr item.name (jsStrOr item.typeLine "Unknown Item"),
    type := jsStrOr item.typeLine "Unknown Type",
    rarity := rarity,
    level := jsNumOr item.ilvl 1,
    stats := stats,
    estimatedValue := none,
    currency := none,
    icon := item.icon }

/-! ### Tolerance bands of the query builder -/

/-- Tolerance band for a single-value mod (`searchSimilarItems` lines
537-538): `[Math.max(0, Math.floor(v*0.8)), Math.ceil(v*1.2)]`. -/
def tolSingle (value : ℚ) : Int × Int :=
  (max 0 ⌊value * (4/5)⌋, ⌈value * (6/5)⌉)

/-- Tolerance band for a two-sided range mod (`searchSimilarItems` lines
512-513): `[Math.max(0, Math.floor(min*0.8)), Math.ceil(max*1.2)]`. -/
def tolRange (lo hi : ℚ) : Int × Int :=
  (max 0 ⌊lo * (4/5)⌋, ⌈hi * (6/5)⌉)

/-! ### Single-item pricing -/

/-- Price extraction from the cheapest listing (`getItemPrice` lines
627-635): requires a truthy `listing`, `listing.price` and `price.amount`;
currency falls back to `chaos`. -/
def extractListingPrice (fi : TradeFetchItem) : Option (ℚ × String) :=
  match fi.listing with
  | none => none
  | some listing =>
    match listing.price with
    | none => none
    | some p =>
      if p.amount ≠ 0 then some (p.amount, jsStrOr (p.currency.getD "") "chaos")
      else none

/-- getItemPrice (`poe2TradeApi.ts` lines 604-641) with the session's network
behaviour supplied as oracles: `search` is the outcome of
`searchSimilarItems` (an `Except.error` is a thrown request error, caught by
the surrounding `try`), `fetchDetails` the outcome of `fetchItemDetails` on
the requested id list.  Every failure path returns `none`; the function is
total, so it never throws. -/
def getItemPrice (search : Except Unit (List String))
    (fetchDetails : List String → Except Unit (List TradeFetchItem)) :
    Option (ℚ × String) :=
  match search with
  | Except.error _ => none
  | Except.ok [] => none
  | Except.ok (first :: _) =>
    match fetchDetails [first] with
    | Except.error _ => none
    | Except.ok [] => none
    | Except.ok (fi :: _) => extractListingPrice fi

/-! ### Incremental batch pricing -/

/-- Observable step of `getPricingDataIncremental`: a callback invocation or
the inter-item cooldown wait. -/
inductive PricingEvent where
  | priced (itemId : String) (pricing : PricingData)
  | cooldown (ms : ℕ)
deriving DecidableEq, Repr

/-- Filter of `getPricingDataIncremental` (lines 705-707): items already
carrying a valuation are skipped. -/
def needsPricing (item : StashedItem) : Bool :=
  item.estimatedValue.isNone || item.currency.isNone

/-- Quote produced for one item (lines 720-738): a successful price becomes
a 0.75-confidence quote, no price becomes the zero-value 0.1-confidence
fallback. -/
def quoteFor (priceOf : StashedItem → Option (ℚ × String)) (item : StashedItem) :
    PricingData :=
  match priceOf item with
  | some pr => { itemId := item.id, estimatedValue := pr.1, currency := pr.2,
                 confidence := 3/4 }
  | none => { itemId := item.id, estimatedValue := 0, currency := "chaos",
              confidence := 1/10 }

/-- Per-item loop of `getPricingDataIncremental` (lines 716-762): price,
invoke the callback, and wait 3000 ms unless this was the last item.  The
`catch` branch of the source is unreachable because `getItemPrice` catches
internally and returns `null` instead of throwing, as the embedding's total
`priceOf` reflects. -/
def pricingLoop (priceOf : StashedItem → Option (ℚ × String)) :
    List StashedItem → List PricingEvent
  | [] => []
  | item :: rest =>
    PricingEvent.priced item.id (quoteFor priceOf item) ::
      ((if rest.isEmpty then [] else [PricingEvent.cooldown 3000]) ++
        pricingLoop priceOf rest)

/-- getPricingDataIncremental (`poe2TradeApi.ts` lines 700-765), as the
trace of callback invocations and cooldown waits it produces. -/
def getPricingDataIncremental (priceOf : StashedItem → Option (ℚ × String))
    (items : List StashedItem) : List PricingEvent :=
  pricingLoop priceOf (items.filter needsPricing)

/-- Callback-invocation view of a trace. -/
def pricedEvent? : PricingEvent → Option (String × PricingData)
  | PricingEvent.priced i p => some (i, p)
  | PricingEvent.cooldown _ => none

/-- Trace the specification's words describe: one callback per item in
submission order, a cooldown between consecutive items and none after the
last. -/
def specExpectedTrace (priceOf : StashedItem → Option (ℚ × String)) :
    List StashedItem → List PricingEvent
  | [] => []
  | [item] => [PricingEvent.priced item.id (quoteFor priceOf item)]
  | item :: next :: rest =>
    PricingEvent.priced item.id (quoteFor priceOf item) ::
      PricingEvent.cooldown 3000 :: specExpectedTrace priceOf (next :: rest)

theorem pricingLoop_eq_specTrace (p : StashedItem → Option (ℚ × String)) :
    ∀ l : List StashedItem, pricingLoop p l = specExpectedTrace p l := by
  intro l
  induction l with
  | nil => rfl
  | cons a l ih =>
    cases l with
    | nil => rfl
    | cons b m =>
      rw [pricingLoop, specExpectedTrace, ← ih]
      rfl

theorem pricingLoop_callbacks (p : StashedItem → Option (ℚ × String)) :
    ∀ l : List StashedItem,
      (pricingLoop p l).filterMap pricedEvent? =
        l.map (fun it => (it.id, quoteFor p it)) := by
  intro l
  induction l with
  | nil => rfl
  | cons a l ih =>
    cases l with
    | nil => rfl
    | cons b m =>
      rw [pricingLoop]
      simp only [List.isEmpty_cons, Bool.false_eq_true, if_false, List.singleton_append,
        List.filterMap_cons, pricedEvent?, List.map_cons]
      rw [ih]
      rfl

/-- C1: over a batch in which no item already carries a valuation, the
incremental pricer — with its single-item step `getItemPrice` driven by
arbitrary search/fetch outcomes — emits exactly the trace the specification
describes: one callback per item, in submission order, a 3000 ms cooldown
between consecutive items and none after the last; an item whose pricing
fails (e.g. its search call throws) still gets its callback, with the
zero-value, 0.1-confidence fallback quote, and the batch continues. -/
theorem c1_priceMany_incremental_trace
    (items : List StashedItem)
    (searchOf : StashedItem → Except Unit (List String))
    (fetchOf : StashedItem → List String → Except Unit (List TradeFetchItem))
    (h : ∀ it ∈ items, needsPricing it = true) :
    getPricingDataIncremental
        (fun it => getItemPrice (searchOf it) (fetchOf it)) items =
      specExpectedTrace (fun it => getItemPrice (searchOf it) (fetchOf it)) items ∧
    (getPricingDataIncremental
        (fun it => getItemPrice (searchOf it) (fetchOf it)) items).filterMap
        pricedEvent? =
      items.map (fun it =>
        (it.id, quoteFor (fun it2 => getItemPrice (searchOf it2) (fetchOf it2)) it)) ∧
    ∀ it : StashedItem, getItemPrice (searchOf it) (fetchOf it) = none →
      quoteFor (fun it2 => getItemPrice (searchOf it2) (fetchOf it2)) it =
        { itemId := it.id, estimatedValue := 0, currency := "chaos",
          confidence := 1/10 } := by
  have hfilter : items.filter needsPricing = items := List.filter_eq_self.mpr h
  refine ⟨?_, ?_, ?_⟩
  · unfold getPricingDataIncremental
    rw [hfilter, pricingLoop_eq_specTrace]
  · unfold getPricingDataIncremental
    rw [hfilter, pricingLoop_callbacks]
  · intro it hnone
    unfold quoteFor
    rw [show (fun it2 => getItemPrice (searchOf it2) (fetchOf it2)) it = none from hnone]

/-- Item used by the C1 witness (Scenario C). -/
def c1wItem (n : String) : StashedItem :=
  { id := n, name := "Item " ++ n, type := "Ring", rarity := "rare", level := 80,
    stats := [], estimatedValue := none, currency := none, icon := none }

/-- Search oracle of the C1 witness: item `2`'s search call throws. -/
def c1wSearch (it : StashedItem) : Except Unit (List String) :=
  if it.id = "2" then Except.error () else Except.ok ["cand"]

/-- Fetch oracle of the C1 witness: the candidate listing costs 10 divine. -/
def c1wFetch (_ : StashedItem) (_ : List String) : Except Unit (List TradeFetchItem) :=
  Except.ok [{ id := "cand",
               item := { name := "C", typeLine := "Ring", rarity := some "rare",
                         ilvl := some 80, icon := none, explicitMods := none,
                         implicitMods := none, craftedMods := none },
               listing := some { price := some { amount := 10,
                                                 currency := some "divine" } } }]

/-- Witness for C1: Scenario C — a batch of three unvalued items where item
`2`'s search call fails produces exactly three callbacks in order, item `2`
carrying the `{0, chaos, 0.1}` fallback, with cooldowns only between
consecutive items. -/
theorem c1_witness :
    (∀ it ∈ [c1wItem "1", c1wItem "2", c1wItem "3"], needsPricing it = true) ∧
    getPricingDataIncremental
        (fun it => getItemPrice (c1wSearch it) (c1wFetch it))
        [c1wItem "1", c1wItem "2", c1wItem "3"] =
      specExpectedTrace (fun it => getItemPrice (c1wSearch it) (c1wFetch it))
        [c1wItem "1", c1wItem "2", c1wItem "3"] ∧
    getPricingDataIncremental
        (fun it => getItemPrice (c1wSearch it) (c1wFetch it))
        [c1wItem "1", c1wItem "2", c1wItem "3"] =
      [PricingEvent.priced "1"
         { itemId := "1", estimatedValue := 10, currency := "divine",
           confidence := 3/4 },
       PricingEvent.cooldown 3000,
       PricingEvent.priced "2"
         { itemId := "2", estimatedValue := 0, currency := "chaos",
           confidence := 1/10 },
       PricingEvent.cooldown 3000,
       PricingEvent.priced "3"
         { itemId := "3", estimatedValue := 10, currency := "divine",
           confidence := 3/4 }] :=
  ⟨by decide,
   (c1_priceMany_incremental_trace [c1wItem "1", c1wItem "2", c1wItem "3"]
      c1wSearch c1wFetch (by decide)).1,
   rfl⟩

/-- C4: for every observed value `v > 0` the single-value tolerance band is
`[⌊0.8v⌋, ⌈1.2v⌉]` (the clamp at `0` is inactive for positive values) and
contains `v` with a non-negative lower end; for a two-sided range
`0 < lo ≤ v ≤ hi` the band is `[⌊0.8·lo⌋, ⌈1.2·hi⌉]` with the same
properties. -/
theorem c4_tolerance_band_contains (v : ℚ) (hv : 0 < v) :
    ((tolSingle v).1 = ⌊v * (4/5)⌋ ∧
      ((tolSingle v).1 : ℚ) ≤ v ∧ v ≤ ((tolSingle v).2 : ℚ) ∧
      0 ≤ (tolSingle v).1) ∧
    ∀ lo hi : ℚ, 0 < lo → lo ≤ v → v ≤ hi →
      (tolRange lo hi).1 = ⌊lo * (4/5)⌋ ∧
      ((tolRange lo hi).1 : ℚ) ≤ v ∧ v ≤ ((tolRange lo hi).2 : ℚ) ∧
      0 ≤ (tolRange lo hi).1 := by
  have hkey : ∀ x : ℚ, 0 < x →
      0 ≤ ⌊x * (4/5)⌋ ∧ ((⌊x * (4/5)⌋ : ℤ) : ℚ) ≤ x := by
    intro x hx
    have h08 : (0 : ℚ) ≤ x * (4/5) := by positivity
    constructor
    · exact Int.floor_nonneg.mpr h08
    · calc ((⌊x * (4/5)⌋ : ℤ) : ℚ) ≤ x * (4/5) := Int.floor_le _
        _ ≤ x := by linarith
  constructor
  · obtain ⟨hnn, hle⟩ := hkey v hv
    have hmax : max 0 ⌊v * (4/5)⌋ = ⌊v * (4/5)⌋ := max_eq_right hnn
    refine ⟨hmax, ?_, ?_, ?_⟩
    · show ((max 0 ⌊v * (4/5)⌋ : ℤ) : ℚ) ≤ v
      rw [hmax]
      exact hle
    · show v ≤ ((⌈v * (6/5)⌉ : ℤ) : ℚ)
      calc v ≤ v * (6/5) := by linarith
        _ ≤ ((⌈v * (6/5)⌉ : ℤ) : ℚ) := Int.le_ceil _
    · show (0 : ℤ) ≤ max 0 ⌊v * (4/5)⌋
      exact le_max_left 0 _
  · intro lo hi hlo hlov hvhi
    obtain ⟨hnn, hle⟩ := hkey lo hlo
    have hmax : max 0 ⌊lo * (4/5)⌋ = ⌊lo * (4/5)⌋ := max_eq_right hnn
    refine ⟨hmax, ?_, ?_, ?_⟩
    · show ((max 0 ⌊lo * (4/5)⌋ : ℤ) : ℚ) ≤ v
      rw [hmax]
      linarith
    · show v ≤ ((⌈hi * (6/5)⌉ : ℤ) : ℚ)
      calc v ≤ hi := hvhi
        _ ≤ hi * (6/5) := by linarith
        _ ≤ ((⌈hi * (6/5)⌉ : ℤ) : ℚ) := Int.le_ceil _
    · show (0 : ℤ) ≤ max 0 ⌊lo * (4/5)⌋
      exact le_max_left 0 _

/-- Witness for C4 at `v = 5` (band `[4, 6]`) and the range `(5, 10)`
containing `v = 7` (band `[4, 12]`). -/
theorem c4_witness :
    (0 : ℚ) < 5 ∧ tolSingle 5 = (4, 6) ∧
    ((tolSingle 5).1 : ℚ) ≤ 5 ∧ (5 : ℚ) ≤ ((tolSingle 5).2 : ℚ) ∧
    tolRange 5 10 = (4, 12) ∧
    ((tolRange 5 10).1 : ℚ) ≤ 7 ∧ (7 : ℚ) ≤ ((tolRange 5 10).2 : ℚ) :=
  ⟨by norm_num,
   by norm_num [tolSingle, Int.floor_eq_iff, Int.ceil_eq_iff],
   ((c4_tolerance_band_contains 5 (by norm_num)).1).2.1,
   ((c4_tolerance_band_contains 5 (by norm_num)).1).2.2.1,
   by norm_num [tolRange, Int.floor_eq_iff, Int.ceil_eq_iff],
   (((c4_tolerance_band_contains 7 (by norm_num)).2 5 10 (by norm_num)
       (by norm_num) (by norm_num))).2.1,
   (((c4_tolerance_band_contains 7 (by norm_num)).2 5 10 (by norm_num)
       (by norm_num) (by norm_num))).2.2.1⟩

/-- C8: `getItemPrice` returns `none` when the search yields no candidates,
when the search itself throws, when fetching the cheapest candidate's
details throws or yields nothing, and when the fetched listing carries no
usable price; when everything succeeds it returns the price of the first
(cheapest) search result.  Being total, it never throws. -/
theorem c8_getItemPrice_none_on_failure
    (f : List String → Except Unit (List TradeFetchItem)) :
    (∀ e : Unit, getItemPrice (Except.error e) f = none) ∧
    getItemPrice (Except.ok []) f = none ∧
    (∀ first : String, ∀ rest : List String, ∀ e : Unit,
      f [first] = Except.error e →
      getItemPrice (Except.ok (first :: rest)) f = none) ∧
    (∀ first : String, ∀ rest : List String,
      f [first] = Except.ok [] →
      getItemPrice (Except.ok (first :: rest)) f = none) ∧
    (∀ first : String, ∀ rest : List String, ∀ fi : TradeFetchItem,
      ∀ l : List TradeFetchItem,
      f [first] = Except.ok (fi :: l) → extractListingPrice fi = none →
      getItemPrice (Except.ok (first :: rest)) f = none) ∧
    (∀ first : String, ∀ rest : List String, ∀ fi : TradeFetchItem,
      ∀ l : List TradeFetchItem, ∀ pr : ℚ × String,
      f [first] = Except.ok (fi :: l) → extractListingPrice fi = some pr →
      getItemPrice (Except.ok (first :: rest)) f = some pr) := by
  refine ⟨fun e => rfl, rfl, ?_, ?_, ?_, ?_⟩
  · intro first rest e hf
    unfold getItemPrice
    dsimp only
    rw [hf]
  · intro first rest hf
    unfold getItemPrice
    dsimp only
    rw [hf]
  · intro first rest fi l hf hx
    unfold getItemPrice
    dsimp only
    rw [hf]
    exact hx
  · intro first rest fi l pr hf hx
    unfold getItemPrice
    dsimp only
    rw [hf]
    exact hx

/-- Zero-priced listing of the C8 witness (a falsy amount, so no usable
price). -/
def c8wZeroItem : TradeFetchItem :=
  { id := "z",
    item := { name := "Z", typeLine := "Ring", rarity := none,
              ilvl := none, icon := none, explicitMods := none,
              implicitMods := none, craftedMods := none },
    listing := some { price := some { amount := 0, currency := some "chaos" } } }

/-- Fetch oracle of the C8 witness. -/
def c8wFetchZero (_ : List String) : Except Unit (List TradeFetchItem) :=
  Except.ok [c8wZeroItem]

/-- Witness for C8: empty search, thrown search, and a zero-amount (falsy)
listing price each give `none`. -/
theorem c8_witness :
    getItemPrice (Except.ok []) c8wFetchZero = none ∧
    getItemPrice (Except.error ()) c8wFetchZero = none ∧
    getItemPrice (Except.ok ["z"]) c8wFetchZero = none :=
  ⟨(c8_getItemPrice_none_on_failure c8wFetchZero).2.1,
   (c8_getItemPrice_none_on_failure c8wFetchZero).1 (),
   (c8_getItemPrice_none_on_failure c8wFetchZero).2.2.2.2.1 "z" []
     c8wZeroItem [] rfl (by decide)⟩

/-! ### Inventory fetch-and-merge (`fetchStashedItems`, lines 292-357)

The item-details cache (a JavaScript `Map`) is an association list in
insertion order; `has`/`get`/`set` follow `Map` semantics.  The search call
and the details fetch are oracles; the embedding covers the successful path
(the `catch` of the source merely rethrows). -/

/-- Map.has on the item-details cache. -/
def cacheHas (cache : List (String × StashedItem)) (id : String) : Bool :=
  (List.find? (fun e => e.1 == id) cache).isSome

/-- Map.get on the item-details cache. -/
def cacheGet (cache : List (String × StashedItem)) (id : String) : Option StashedItem :=
  (List.find? (fun e => e.1 == id) cache).map (fun e => e.2)

/-- Map.set on the item-details cache: replace in place or append. -/
def cacheSet : List (String × StashedItem) → String → StashedItem →
    List (String × StashedItem)
  | [], k, v => [(k, v)]
  | (k', v') :: rest, k, v =>
    if k' == k then (k, v) :: rest else (k', v') :: cacheSet rest k v

/-- fetchStashedItems (`poe2TradeApi.ts` lines 292-357) on a successful
search returning `searchResult` ids and a details fetch `fetched`: an empty
search short-circuits to an empty list; otherwise existing items are kept,
search ids found in the cache (and not among existing) contribute their
cached items in search order, and the remaining ids are fetched, converted,
cached and appended.  Returns the item list and the updated cache. -/
def fetchStashedItems (cache : List (String × StashedItem))
    (existing : List StashedItem) (searchResult : List String)
    (fetched : List String → List TradeFetchItem) :
    List StashedItem × List (String × StashedItem) :=
  if searchResult.isEmpty then ([], cache)
  else
    let existingIds := existing.map (fun it => it.id)
    let itemsToFetch := searchResult.filter
      (fun id => !existingIds.contains id && !cacheHas cache id)
    let cachedPart := searchResult.filterMap
      (fun id => if cacheHas cache id && !existingIds.contains id
        then cacheGet cache id else none)
    let newFetched := if itemsToFetch.isEmpty then [] else fetched itemsToFetch
    let newItems := newFetched.map convertApiItemToStashedItem
    let cache2 := newFetched.foldl
      (fun c fi => cacheSet c fi.id (convertApiItemToStashedItem fi)) cache
    (existing ++ (cachedPart ++ newItems), cache2)

theorem cacheGet_of_has {cache : List (String × StashedItem)} {id : String}
    (h : cacheHas cache id = true) : ∃ it, cacheGet cache id = some it := by
  unfold cacheHas at h
  unfold cacheGet
  rcases hf : List.find? (fun e => e.1 == id) cache with _ | e
  · rw [hf] at h
    simp at h
  · exact ⟨e.2, by rw [hf]; rfl⟩

theorem cachedPart_ids (cache : List (String × StashedItem))
    (existingIds : List String)
    (hcache : ∀ id it, cacheGet cache id = some it → it.id = id) :
    ∀ sr : List String,
      ((sr.filterMap (fun id => if cacheHas cache id && !existingIds.contains id
          then cacheGet cache id else none)).map (fun it => it.id)) =
        sr.filter (fun id => cacheHas cache id && !existingIds.contains id) := by
  intro sr
  induction sr with
  | nil => rfl
  | cons a sr ih =>
    rw [List.filterMap_cons, List.filter_cons]
    cases hP : (cacheHas cache a && !existingIds.contains a)
    · rw [if_neg (by simp [hP])]
      simp only [Bool.false_eq_true, if_false]
      exact ih
    · rw [if_pos (by simp [hP])]
      obtain ⟨it, hit⟩ := cacheGet_of_has (by
        have hP2 := hP
        simp only [Bool.and_eq_true] at hP2
        exact hP2.1)
      rw [hit]
      simp only [if_pos, List.map_cons]
      rw [hcache a it hit, ih]

/-- Item used by the C9 counterexample. -/
def c9Item (n : String) : StashedItem :=
  { id := n, name := "Item " ++ n, type := "Amulet", rarity := "rare", level := 70,
    stats := [], estimatedValue := none, currency := none, icon := none }

/-- Counterexample for C9 as stated: with distinct existing ids (vacuously,
none) and a consistent one-entry cache (its sole lookup returns the item
bearing that id), a search response that repeats an id duplicates the cached
item, so an id occurs twice in the returned list; moreover an empty search
response drops the supplied existing items entirely. -/
theorem c9_counterexample :
    (cacheGet [("a", c9Item "a")] "a" = some (c9Item "a") ∧ (c9Item "a").id = "a") ∧
    ((fetchStashedItems [("a", c9Item "a")] [] ["a", "a"]
        (fun _ => [])).1.map (fun it => it.id) = ["a", "a"] ∧
      ¬ (((fetchStashedItems [("a", c9Item "a")] [] ["a", "a"]
          (fun _ => [])).1.map (fun it => it.id)).Nodup)) ∧
    ¬ (c9Item "b" ∈ (fetchStashedItems [] [c9Item "b"] [] (fun _ => [])).1) := by
  exact ⟨⟨by decide, by decide⟩, ⟨by decide, by decide⟩, by decide⟩

/-- C9 (amended): when additionally the search response contains no duplicate
ids and the details fetch, on a duplicate-free request, returns items whose
ids are pairwise distinct and drawn from the requested ids, the merge keeps
every supplied existing item (once the search response is non-empty) and
produces no duplicate ids. -/
theorem c9_fetchStashedItems_merge (cache : List (String × StashedItem))
    (existing : List StashedItem) (searchResult : List String)
    (fetched : List String → List TradeFetchItem)
    (hex : ((existing.map (fun it => it.id)).Nodup))
    (hcache : ∀ id it, cacheGet cache id = some it → it.id = id)
    (hsearch : searchResult.Nodup)
    (hfids : ∀ ids : List String, ids.Nodup →
      (((fetched ids).map (fun fi => fi.id)).Nodup))
    (hfmem : ∀ ids : List String, ∀ fi ∈ fetched ids, fi.id ∈ ids)
    (hne : searchResult ≠ []) :
    (∀ it ∈ existing, it ∈ (fetchStashedItems cache existing searchResult fetched).1) ∧
    (((fetchStashedItems cache existing searchResult fetched).1.map
        (fun it => it.id)).Nodup) := by
  have hnee : searchResult.isEmpty = false := by
    cases searchResult with
    | nil => exact absurd rfl hne
    | cons a l => rfl
  unfold fetchStashedItems
  rw [hnee]
  simp only [Bool.false_eq_true, if_false]
  constructor
  · intro it hit
    exact List.mem_append_left _ hit
  · rw [List.map_append, List.map_append]
    set existingIds := existing.map (fun it => it.id) with hEids
    set itemsToFetch := searchResult.filter
      (fun id => !existingIds.contains id && !cacheHas cache id) with hIT
    set cachedPart := searchResult.filterMap
      (fun id => if cacheHas cache id && !existingIds.contains id
        then cacheGet cache id else none) with hCP
    set newFetched := if itemsToFetch.isEmpty then [] else fetched itemsToFetch
      with hNF
    have hcpids : cachedPart.map (fun it => it.id) =
        searchResult.filter (fun id => cacheHas cache id && !existingIds.contains id) :=
      cachedPart_ids cache existingIds hcache searchResult
    have hniids : (newFetched.map convertApiItemToStashedItem).map (fun it => it.id) =
        newFetched.map (fun fi => fi.id) := by
      rw [List.map_map]
      exact List.map_congr_left (fun fi _ => rfl)
    have hnf_nodup : (newFetched.map (fun fi => fi.id)).Nodup := by
      rw [hNF]
      split
      · exact List.nodup_nil
      · exact hfids itemsToFetch (hsearch.filter _)
    have hnf_mem : ∀ fi ∈ newFetched, fi.id ∈ itemsToFetch := by
      intro fi hfi
      rw [hNF] at hfi
      split at hfi
      · exact absurd hfi (List.not_mem_nil fi)
      · exact hfmem itemsToFetch fi hfi
    have hIT_not_ex : ∀ a ∈ itemsToFetch, existingIds.contains a = false := by
      intro a ha
      have hv := List.of_mem_filter ha
      simp only [Bool.and_eq_true] at hv
      simpa using hv.1
    have hIT_not_cache : ∀ a ∈ itemsToFetch, cacheHas cache a = false := by
      intro a ha
      have hv := List.of_mem_filter ha
      simp only [Bool.and_eq_true] at hv
      simpa using hv.2
    have hCP_cache : ∀ a ∈ cachedPart.map (fun it => it.id), cacheHas cache a = true := by
      intro a ha
      rw [hcpids] at ha
      have hv := List.of_mem_filter ha
      simp only [Bool.and_eq_true] at hv
      exact hv.1
    have hCP_not_ex : ∀ a ∈ cachedPart.map (fun it => it.id),
        existingIds.contains a = false := by
      intro a ha
      rw [hcpids] at ha
      have hv := List.of_mem_filter ha
      simp only [Bool.and_eq_true] at hv
      simpa using hv.2
    rw [List.nodup_append]
    refine ⟨hex, ?_, ?_⟩
    · rw [List.nodup_append]
      refine ⟨?_, ?_, ?_⟩
      · rw [hcpids]
        exact hsearch.filter _
      · rw [hniids]
        exact hnf_nodup
      · intro a ha hb
        rw [hniids] at hb
        rcases List.mem_map.mp hb with ⟨fi, hfi, hfid⟩
        have hin : a ∈ itemsToFetch := hfid ▸ hnf_mem fi hfi
        have h1 := hIT_not_cache a hin
        have h2 := hCP_cache a ha
        rw [h1] at h2
        exact Bool.false_ne_true h2
    · intro a ha hb
      have haE : existingIds.contains a = true := by
        rw [hEids]
        exact List.elem_iff.mpr ha
      rcases List.mem_append.mp hb with hc | hn
      · have := hCP_not_ex a hc
        rw [this] at haE
        exact Bool.false_ne_true haE
      · rw [hniids] at hn
        rcases List.mem_map.mp hn with ⟨fi, hfi, hfid⟩
        have hin : a ∈ itemsToFetch := hfid ▸ hnf_mem fi hfi
        have := hIT_not_ex a hin
        rw [this] at haE
        exact Bool.false_ne_true haE

/-- Details-fetch oracle of the C9 witness: one belt per requested id. -/
def c9wFetch (ids : List String) : List TradeFetchItem :=
  ids.map (fun i =>
    { id := i,
      item := { name := "N", typeLine := "Belt", rarity := some "rare",
                ilvl := some 60, icon := none, explicitMods := some ["+9 to x"],
                implicitMods := none, craftedMods := none },
      listing := none })

/-- Witness for the amended C9: one existing item, one cached id and one
newly fetched id merge into a list keeping the existing item with three
distinct ids. -/
theorem c9_witness :
    (fetchStashedItems [("c", c9Item "c")] [c9Item "e"] ["e", "c", "n"]
        c9wFetch).1.map (fun it => it.id) = ["e", "c", "n"] ∧
    c9Item "e" ∈ (fetchStashedItems [("c", c9Item "c")] [c9Item "e"]
        ["e", "c", "n"] c9wFetch).1 ∧
    (((fetchStashedItems [("c", c9Item "c")] [c9Item "e"] ["e", "c", "n"]
        c9wFetch).1.map (fun it => it.id)).Nodup) := by
  have hcachewf : ∀ id it, cacheGet [("c", c9Item "c")] id = some it → it.id = id := by
    intro id it h
    unfold cacheGet at h
    rcases hf : List.find? (fun e => e.1 == id) [("c", c9Item "c")] with _ | e
    · rw [hf] at h
      simp at h
    · rw [hf] at h
      have he := List.find?_some hf
      have hmem := List.mem_of_find?_eq_some hf
      simp only [List.mem_singleton] at hmem
      subst hmem
      simp only [Option.map_some'] at h
      have hid : id = "c" := (of_decide_eq_true he).symm
      subst hid
      obtain rfl : c9Item "c" = it := Option.some.inj h
      rfl
  have hfidswf : ∀ ids : List String, ids.Nodup →
      ((c9wFetch ids).map (fun fi => fi.id)).Nodup := by
    intro ids hn
    unfold c9wFetch
    rw [List.map_map]
    have : ids.map ((fun fi : TradeFetchItem => fi.id) ∘ (fun i =>
        ({ id := i,
           item := { name := "N", typeLine := "Belt", rarity := some "rare",
                     ilvl := some 60, icon := none, explicitMods := some ["+9 to x"],
                     implicitMods := none, craftedMods := none },
           listing := none } : TradeFetchItem))) = ids.map (fun i => i) :=
      List.map_congr_left (fun i _ => rfl)
    rw [this, List.map_id']
    exact hn
  have hfmemwf : ∀ ids : List String, ∀ fi ∈ c9wFetch ids, fi.id ∈ ids := by
    intro ids fi hfi
    rcases List.mem_map.mp hfi with ⟨i, hi, he⟩
    rw [← he]
    exact hi
  have h := c9_fetchStashedItems_merge [("c", c9Item "c")] [c9Item "e"]
    ["e", "c", "n"] c9wFetch (by decide) hcachewf (by decide) hfidswf hfmemwf
    (by decide)
  exact ⟨by decide, h.1 (c9Item "e") (List.mem_cons_self _ _), h.2⟩

/-! ### Account-switch cache clearing (`App` `handleFetchItems`)

Both App revisions share the guard (`src/src/App.tsx` lines 303-314,
`src/unnamed/part_001` lines 550-561): the item-details cache
(`Poe2TradeApi.clearCache`, `poe2TradeApi.ts` lines 32-35) and the working
item list are wiped only before a fetch whose account differs from a
non-blank previous account name.  The embedding covers this synchronous
prefix of `handleFetchItems`, the only part that touches the cache contents
directly. -/

/-- State the clearing guard reads and writes: the previously fetched
account name, the item-details cache and the working item list. -/
structure AppFetchState where
  accountName : String
  itemDetailsCache : List (String × StashedItem)
  items : List StashedItem
deriving Repr

/-- Synchronous prefix of handleFetchItems: clear cache and items when a
non-blank previous account differs from the requested one, then record the
requested account. -/
def handleFetchItemsClearPhase (s : AppFetchState) (account : String) : AppFetchState :=
  if s.accountName ≠ "" ∧ jsTrimStr s.accountName ≠ "" ∧ s.accountName ≠ account then
    { accountName := account, itemDetailsCache := [], items := [] }
  else
    { s with accountName := account }

/-- C10: the fetch request clears the item-details cache and the working item
list exactly when a previous account name exists, is non-blank, and differs
from the requested account; in particular a first fetch (empty previous
name), a repeat fetch of the same account, and a blank-after-trim previous
name all leave both untouched. -/
theorem c10_clear_cache_only_on_account_switch (s : AppFetchState) (account : String) :
    ((s.accountName = "" ∨ jsTrimStr s.accountName = "" ∨ s.accountName = account) →
      (handleFetchItemsClearPhase s account).itemDetailsCache = s.itemDetailsCache ∧
      (handleFetchItemsClearPhase s account).items = s.items) ∧
    ((s.accountName ≠ "" ∧ jsTrimStr s.accountName ≠ "" ∧ s.accountName ≠ account) →
      (handleFetchItemsClearPhase s account).itemDetailsCache = [] ∧
      (handleFetchItemsClearPhase s account).items = []) ∧
    (handleFetchItemsClearPhase s account).accountName = account := by
  unfold handleFetchItemsClearPhase
  by_cases hcond : s.accountName ≠ "" ∧ jsTrimStr s.accountName ≠ "" ∧
      s.accountName ≠ account
  · rw [if_pos hcond]
    refine ⟨?_, fun _ => ⟨rfl, rfl⟩, rfl⟩
    intro hno
    exfalso
    rcases hno with h | h | h
    · exact hcond.1 h
    · exact hcond.2.1 h
    · exact hcond.2.2 h
  · rw [if_neg hcond]
    refine ⟨fun _ => ⟨rfl, rfl⟩, ?_, rfl⟩
    intro hyes
    exact absurd hyes hcond

/-- Item used by the C10 witness. -/
def c10Item : StashedItem :=
  { id := "x", name := "Item x", type := "Helmet", rarity := "unique", level := 75,
    stats := [], estimatedValue := some 3, currency := some "divine", icon := none }

/-- Witness for C10: a first fetch and a repeat fetch keep the cache; a
switch from a different non-blank account clears it. -/
theorem c10_witness :
    (((AppFetchState.mk "" [("x", c10Item)] [c10Item]).accountName = "" ∨
        jsTrimStr (AppFetchState.mk "" [("x", c10Item)] [c10Item]).accountName = "" ∨
        (AppFetchState.mk "" [("x", c10Item)] [c10Item]).accountName = "alice") ∧
      (handleFetchItemsClearPhase
          (AppFetchState.mk "" [("x", c10Item)] [c10Item]) "alice").itemDetailsCache =
        [("x", c10Item)]) ∧
    ((AppFetchState.mk "alice" [("x", c10Item)] []).accountName ≠ "" ∧
      jsTrimStr (AppFetchState.mk "alice" [("x", c10Item)] []).accountName ≠ "" ∧
      (AppFetchState.mk "alice" [("x", c10Item)] []).accountName ≠ "bob") ∧
    (handleFetchItemsClearPhase
        (AppFetchState.mk "alice" [("x", c10Item)] []) "bob").itemDetailsCache = [] :=
  ⟨⟨Or.inl rfl,
    ((c10_clear_cache_only_on_account_switch
        (AppFetchState.mk "" [("x", c10Item)] [c10Item]) "alice").1
      (Or.inl rfl)).1⟩,
   by decide,
   ((c10_clear_cache_only_on_account_switch
        (AppFetchState.mk "alice" [("x", c10Item)] []) "bob").2.1
      (by decide)).1⟩
